import Mathlib

/-!
Verification development for the multi-day nutrient allocation engine of
`smart_ration/bot.py` (functions `distribute_products`, `find_similar_product`,
`calculate_total_calories`, `create_multi_day_plan` and the fallback product
catalog of `load_products`).

The Python code is embedded shallowly:
* floating-point numbers become exact rationals (`ℚ`); the tolerances
  `1e-9` and `1e-6` become the rational constants `eps9` and `eps6`;
* the Python dict `assigned_grams` becomes an association list
  (`List (String × ℚ)`) with insertion-order iteration, first-key lookup
  (default `0.0`, as in `.get(name, 0.0)`) and in-place update, mirroring
  CPython dict semantics;
* the unbounded `while` loop of `create_multi_day_plan` becomes a
  fuel-indexed loop `planLoop` returning `none` when the fuel is exhausted
  while the loop condition still holds, so `planLoop fuel rem cap = some ds`
  says exactly that the Python loop terminates within `fuel` iterations
  producing the day list `ds`;
* the inner helper `calories_per_gram` (kcal per 1 g of a named product) is
  abstracted into a `cpg : String → ℚ` parameter of the planner core so the
  density resolver can be quantified over; the concrete resolver of the
  source, built from `find_similar_product` and `PRODUCTS_DB`, is
  `calories_per_gram`, and `create_multi_day_plan` instantiates the core
  with it exactly as the source does.
-/

/-- `1e-9`, the "effectively zero mass / energy" tolerance of the source. -/
def eps9 : ℚ := 1 / 1000000000

/-- `1e-6`, the "effectively at cap" tolerance of the source. -/
def eps6 : ℚ := 1 / 1000000

/-- A product record of the catalog (`@dataclass Product` in `bot.py`). -/
structure Product where
  name : String
  calories : ℚ
  protein : ℚ
  fat : ℚ
  carbs : ℚ
  deriving DecidableEq, Repr

/-- The fallback product catalog hard-coded in `load_products` of `bot.py`
(used when neither `products.json` nor `extended_products.json` exists),
keyed by lower-cased name in insertion order, as a Python dict is. -/
def PRODUCTS_DB : List (String × Product) :=
  [ ("курица", ⟨"курица", 165, 31, 36/10, 0⟩)
  , ("гречка", ⟨"гречка", 343, 13, 34/10, 72⟩)
  , ("рис", ⟨"рис", 344, 7, 1, 78⟩)
  , ("яйца", ⟨"яйца", 157, 13, 11, 11/10⟩)
  , ("творог", ⟨"творог", 88, 18, 6/10, 18/10⟩)
  , ("молоко", ⟨"молоко", 42, 34/10, 1, 5⟩)
  , ("хлеб", ⟨"хлеб", 265, 9, 32/10, 49⟩)
  , ("картофель", ⟨"картофель", 77, 2, 1/10, 17⟩)
  , ("морковь", ⟨"морковь", 41, 9/10, 2/10, 96/10⟩)
  , ("яблоко", ⟨"яблоко", 52, 3/10, 2/10, 14⟩)
  , ("банан", ⟨"банан", 89, 11/10, 3/10, 23⟩)
  , ("борщ", ⟨"борщ", 85, 45/10, 38/10, 82/10⟩)
  , ("пельмени", ⟨"пельмени", 275, 12, 8, 42⟩) ]

/-- Python's `needle in hay` on lists of characters: `needle` is a
contiguous sublist of `hay` (the empty list is contained in anything). -/
def charsPre : List Char → List Char → Bool
  | [], _ => true
  | _ :: _, [] => false
  | a :: as, b :: bs => a == b && charsPre as bs

/-- Python's substring test `needle in hay` on strings. -/
def pyIn (needle hay : String) : Bool :=
  let n := needle.toList
  let h := hay.toList
  (List.range (h.length + 1)).any (fun i => charsPre n (h.drop i))

/-- One character of Python's `str.lower()`: the Unicode simple lower-case
mapping, realised on the repertoire the program's data draws on — the
Cyrillic capitals `А`–`Я` (`U+0410`–`U+042F`, shifted by `0x20`, so the
all-Cyrillic catalog keys are reachable from upper-case queries) and
`Ѐ`–`Џ` (`U+0400`–`U+040F`, shifted by `0x50`, covering `Ё`), the Latin-1
capitals `À`–`Þ` except `×`, and ASCII `A`–`Z` (via `Char.toLower`);
characters outside these blocks are unchanged. -/
def pyLowerChar (c : Char) : Char :=
  let n := c.toNat
  if 0x410 ≤ n ∧ n ≤ 0x42F then Char.ofNat (n + 0x20)
  else if 0x400 ≤ n ∧ n ≤ 0x40F then Char.ofNat (n + 0x50)
  else if 0xC0 ≤ n ∧ n ≤ 0xDE ∧ n ≠ 0xD7 then Char.ofNat (n + 0x20)
  else c.toLower

/-- Python's `str.lower()`: character-wise lower-casing. -/
def pyLower (s : String) : String := ⟨s.data.map pyLowerChar⟩

/-- `find_similar_product` of `bot.py`: lower-case the query, return it on an
exact catalog-key match, otherwise return the first catalog key (in catalog
order) that contains the query or is contained in it, otherwise `None`. -/
def find_similar_product (product_name : String) : Option String :=
  let q := pyLower product_name
  if PRODUCTS_DB.any (fun p => p.1 == q) then some q
  else ((PRODUCTS_DB.find? (fun p => pyIn q p.1 || pyIn p.1 q)).map Prod.fst)

/-- `PRODUCTS_DB[key]` (first entry with the given key). -/
def dbLookup (key : String) : Option Product :=
  (PRODUCTS_DB.find? (fun p => p.1 == key)).map Prod.snd

/-- The inner helper `calories_per_gram` of `create_multi_day_plan`:
`PRODUCTS_DB[find_similar_product(name)].calories / 100` when the name
resolves, else the default `100.0 / 100.0` (1 kcal per gram). -/
def calories_per_gram (product_name : String) : ℚ :=
  match find_similar_product product_name with
  | some db =>
      (match dbLookup db with
       | some p => p.calories
       | none => 0) / 100
  | none => 100 / 100

/-- `calculate_total_calories` of `bot.py`: catalog calories (or the default
100 kcal / 100 g) times weight / 100, summed over the list. -/
def calculate_total_calories (products : List (String × ℚ)) : ℚ :=
  products.foldl
    (fun acc p =>
      match find_similar_product p.1 with
      | some db =>
          acc + (match dbLookup db with
                 | some pr => pr.calories
                 | none => 0) * p.2 / 100
      | none => acc + 100 * p.2 / 100)
    0

/-- `MealPlan` of `bot.py`: four fixed meal slots plus the optional
`second_snack` slot. -/
structure MealPlan where
  breakfast : List (String × ℚ)
  snack : List (String × ℚ)
  lunch : List (String × ℚ)
  dinner : List (String × ℚ)
  second_snack : Option (List (String × ℚ))
  deriving DecidableEq, Repr

/-- `distribute_products` of `bot.py`: an empty product list yields
`MealPlan([], [], [], [])` (whose `second_snack` defaults to `None`);
otherwise every product is appended to each of the four base slots at
`total_weight / meals_count`, and also to `second_snack` exactly when
`meals_count == 5`. -/
def distribute_products (products : List (String × ℚ)) (meals_count : ℤ) : MealPlan :=
  if products.isEmpty then ⟨[], [], [], [], none⟩
  else
    let per := products.map (fun p => (p.1, p.2 / (meals_count : ℚ)))
    ⟨per, per, per, per, if meals_count = 5 then some per else none⟩

/-- One entry of the mutable `remaining` list of `create_multi_day_plan`:
`{"name": ..., "weight": ..., "kcal_per_g": ...}`. -/
structure RItem where
  name : String
  weight : ℚ
  kcalPerG : ℚ
  deriving DecidableEq, Repr

/-- The `assigned_grams` dict: key/value pairs in insertion order. -/
abbrev Grams := List (String × ℚ)

/-- Python `d.get(k, 0.0)` (also `d[k]` at keys known to be present). -/
def dget (d : Grams) (k : String) : ℚ :=
  ((d.find? (fun p => p.1 == k)).map Prod.snd).getD 0

/-- Python `d[k] = v`: replace the value at an existing key in place,
otherwise append the new pair. -/
def dset (d : Grams) (k : String) (v : ℚ) : Grams :=
  if d.any (fun p => p.1 == k) then
    d.map (fun p => if p.1 == k then (k, v) else p)
  else d ++ [(k, v)]

/-- `{item["name"]: 0.0 for item in remaining}`. -/
def initAssigned (rem : List RItem) : Grams :=
  rem.foldl (fun d it => dset d it.name 0) []

/-- `next(itm for itm in remaining if itm["name"] == name)["kcal_per_g"]`
(0 as an unreachable default for absent names). -/
def firstK (rem : List RItem) (n : String) : ℚ :=
  ((rem.find? (fun it => it.name == n)).map RItem.kcalPerG).getD 0

/-- `sum(item["weight"] * item["kcal_per_g"] for item in remaining)`. -/
def totalKcal (rem : List RItem) : ℚ :=
  (rem.map (fun it => it.weight * it.kcalPerG)).sum

/-- One step of the proportional pass of `create_multi_day_plan`: skip items
with `weight <= 1e-9`, otherwise add
`min(weight, (target * remaining-energy-share) / max(kcal_per_g, 1e-9))`
to the item's assigned grams when positive. -/
def propStep (target R : ℚ) (d : Grams) (it : RItem) : Grams :=
  if it.weight ≤ eps9 then d
  else
    let share := target * ((it.weight * it.kcalPerG) / R)
    let grams := min it.weight (share / max it.kcalPerG eps9)
    if 0 < grams then dset d it.name (dget d it.name + grams) else d

/-- The whole proportional pass (`for item in remaining: ...`). -/
def propPass (target R : ℚ) (rem : List RItem) (d : Grams) : Grams :=
  rem.foldl (propStep target R) d

/-- `day_kcal`: sum over the dict (in key insertion order) of assigned grams
times the `kcal_per_g` of the first remaining item with that name. -/
def dictKcal (rem : List RItem) (d : Grams) : ℚ :=
  (d.map (fun p => p.2 * firstK rem p.1)).sum

/-- One step of the residual top-up pass: stop once the residual is
`<= 1e-6`, skip items with `weight <= 1e-9`, otherwise add
`min(weight - already-assigned, residual / max(kcal_per_g, 1e-9))` grams and
charge `added * max(kcal_per_g, 1e-9)` kcal to the residual. -/
def residStep (s : ℚ × Grams) (it : RItem) : ℚ × Grams :=
  if s.1 ≤ eps6 then s
  else if it.weight ≤ eps9 then s
  else
    let kpg := max it.kcalPerG eps9
    let cur := dget s.2 it.name
    let canAdd := max 0 (it.weight - cur)
    let add := min canAdd (s.1 / kpg)
    if 0 < add then (s.1 - add * kpg, dset s.2 it.name (cur + add)) else s

/-- The whole residual pass (the `for item in remaining` loop guarded by
`residual_kcal > 1e-6`), returning the final residual and dict. -/
def residPass (residual : ℚ) (rem : List RItem) (d : Grams) : ℚ × Grams :=
  rem.foldl residStep (residual, d)

/-- The commitment loop of `create_multi_day_plan`: clamp the assigned grams
of each item to `[0, weight]`; when positive, emit `(name, grams)` into the
day, subtract the grams from the item's weight and floor weights below
`1e-9` to `0`. Returns the day's product list and the updated `remaining`. -/
def chargeDay (d : Grams) : List RItem → List (String × ℚ) × List RItem
  | [] => ([], [])
  | it :: rest =>
    let grams := max 0 (min (dget d it.name) it.weight)
    let (dps, rs) := chargeDay d rest
    if 0 < grams then
      let w := it.weight - grams
      let w2 := if w < eps9 then 0 else w
      ((it.name, grams) :: dps, ⟨it.name, w2, it.kcalPerG⟩ :: rs)
    else (dps, ⟨it.name, it.weight, it.kcalPerG⟩ :: rs)

/-- The final `assigned_grams` dict of one iteration of the day-building
loop of `create_multi_day_plan`, given `total_remaining_kcal = R`:
proportional pass; if `day_kcal > target + 1e-6` rescale every assigned
value by `target / day_kcal`, otherwise run the residual top-up pass when
`residual > 1e-6`. -/
def buildDayDict (cap R : ℚ) (rem : List RItem) : Grams :=
  let target := min cap R
  let d1 := propPass target R rem (initAssigned rem)
  let dayKcal := dictKcal rem d1
  if target + eps6 < dayKcal then
    d1.map (fun p => (p.1, p.2 * (target / dayKcal)))
  else
    let residual := max 0 (target - dayKcal)
    if eps6 < residual then (residPass residual rem d1).2 else d1

/-- One iteration of the day-building loop of `create_multi_day_plan`:
compute the final assigned grams, then commit the day. -/
def buildDay (cap R : ℚ) (rem : List RItem) : List (String × ℚ) × List RItem :=
  chargeDay (buildDayDict cap R rem) rem

/-- The `while any(item["weight"] > 1e-9 for item in remaining)` loop of
`create_multi_day_plan`, with explicit fuel: `none` means the loop does not
terminate within `fuel` iterations; `some days` is the emitted day list
(each day in pool order, days in chronological order). The inner
`if total_remaining_kcal <= 1e-9: break` is kept verbatim. -/
def planLoop (cap : ℚ) : ℕ → List RItem → Option (List (List (String × ℚ)))
  | 0, rem =>
    if rem.any (fun it => eps9 < it.weight) then none else some []
  | fuel' + 1, rem =>
    if rem.any (fun it => eps9 < it.weight) then
      let R := totalKcal rem
      if R ≤ eps9 then some []
      else
        let st := buildDay cap R rem
        (planLoop cap fuel' st.2).map (fun ds => st.1 :: ds)
    else some []

/-- The `remaining` list built at the top of `create_multi_day_plan`:
positive-weight products only, each with its resolved kcal-per-gram. -/
def initRemaining (cpg : String → ℚ) (products : List (String × ℚ)) : List RItem :=
  (products.filter (fun p => 0 < p.2)).map (fun p => ⟨p.1, p.2, cpg p.1⟩)

/-- The day-bucket part of `create_multi_day_plan` (everything before the
final `distribute_products` fan-out), with the density resolver abstracted
as `cpg` (kcal per gram per name). -/
def multiDayBucketsWith (cpg : String → ℚ) (products : List (String × ℚ))
    (daily_calories calorie_excess_cap : ℤ) (fuel : ℕ) :
    Option (List (List (String × ℚ))) :=
  planLoop ((daily_calories + calorie_excess_cap : ℤ) : ℚ) fuel
    (initRemaining cpg products)

/-- `create_multi_day_plan` with the density resolver abstracted. -/
def create_multi_day_planWith (cpg : String → ℚ) (products : List (String × ℚ))
    (daily_calories : ℤ) (meals_count : ℤ) (calorie_excess_cap : ℤ)
    (fuel : ℕ) : Option (List MealPlan) :=
  (multiDayBucketsWith cpg products daily_calories calorie_excess_cap fuel).map
    (fun days => days.map (fun day => distribute_products day meals_count))

/-- `create_multi_day_plan` of `bot.py`, with the concrete resolver
`calories_per_gram` of the source. -/
def create_multi_day_plan (products : List (String × ℚ)) (daily_calories : ℤ)
    (meals_count : ℤ) (calorie_excess_cap : ℤ) (fuel : ℕ) :
    Option (List MealPlan) :=
  create_multi_day_planWith calories_per_gram products daily_calories
    meals_count calorie_excess_cap fuel

/-- Energy of one emitted day bucket under a kcal-per-gram resolver:
`Σ grams_i * density_i / 100` of the spec, with `cpg = density / 100`. -/
def dayEnergy (cpg : String → ℚ) (day : List (String × ℚ)) : ℚ :=
  (day.map (fun p => p.2 * cpg p.1)).sum

/-- Total grams assigned to the name `n` across all day buckets. -/
def assignedTotal (n : String) (days : List (List (String × ℚ))) : ℚ :=
  (days.map (fun day => ((day.filter (fun p => p.1 == n)).map Prod.snd).sum)).sum

/-- All slot entries of a `MealPlan`, in slot order. -/
def mealPlanEntries (mp : MealPlan) : List (String × ℚ) :=
  mp.breakfast ++ mp.snack ++ mp.lunch ++ mp.dinner ++ mp.second_snack.getD []

/-! ### Basic facts about the association-list dict -/

/-- The key list of the dict, in insertion order. -/
def keys (d : Grams) : List String := d.map Prod.fst

/-- The name list of a remaining-item list. -/
def names (rem : List RItem) : List String := rem.map RItem.name

theorem keys_nil : keys [] = [] := rfl

theorem mem_keys_iff_any (d : Grams) (n : String) :
    n ∈ keys d ↔ d.any (fun p => p.1 == n) = true := by
  induction d with
  | nil => simp [keys]
  | cons p d ih =>
    simp only [keys, List.map_cons, List.mem_cons, List.any_cons, Bool.or_eq_true,
      beq_iff_eq, ← ih, keys]
    constructor
    · rintro (h | h)
      · exact Or.inl h.symm
      · exact Or.inr h
    · rintro (h | h)
      · exact Or.inl h.symm
      · exact Or.inr h

/-- The in-place-update branch of `dset`, written out. -/
def mapUpd (d : Grams) (n : String) (v : ℚ) : Grams :=
  d.map (fun p => if p.1 == n then (n, v) else p)

theorem dset_of_any (d : Grams) (n : String) (v : ℚ)
    (h : (d.any fun p => p.1 == n) = true) : dset d n v = mapUpd d n v := by
  unfold dset mapUpd
  rw [if_pos h]

theorem dset_of_not_any (d : Grams) (n : String) (v : ℚ)
    (h : ¬ (d.any fun p => p.1 == n) = true) : dset d n v = d ++ [(n, v)] := by
  unfold dset
  rw [if_neg h]

theorem beqT {a b : String} (h : a = b) : (a == b) = true := beq_iff_eq.2 h

theorem beqNT {a b : String} (h : a ≠ b) : ¬ ((a == b) = true) := by
  simp [h]

theorem dget_nil (m : String) : dget [] m = 0 := rfl

theorem dget_cons (p : String × ℚ) (d : Grams) (m : String) :
    dget (p :: d) m = if (p.1 == m) = true then p.2 else dget d m := by
  unfold dget
  simp only [List.find?_cons]
  cases h : (p.1 == m) with
  | true => simp
  | false => simp

theorem mapUpd_cons (p : String × ℚ) (d : Grams) (n : String) (v : ℚ) :
    mapUpd (p :: d) n v = (if (p.1 == n) = true then (n, v) else p) :: mapUpd d n v := by
  simp [mapUpd]

theorem dget_mapUpd_ne (d : Grams) (n v m) (h : m ≠ n) :
    dget (mapUpd d n v) m = dget d m := by
  induction d with
  | nil => rfl
  | cons p d ih =>
    rw [mapUpd_cons]
    by_cases hp : p.1 = n
    · rw [if_pos (beqT hp), dget_cons, dget_cons]
      rw [if_neg (beqNT (fun e => h e.symm)),
        if_neg (beqNT (fun e => h (hp ▸ e).symm))]
      exact ih
    · rw [if_neg (beqNT hp), dget_cons, dget_cons]
      by_cases hpm : p.1 = m
      · rw [if_pos (beqT hpm), if_pos (beqT hpm)]
      · rw [if_neg (beqNT hpm), if_neg (beqNT hpm)]
        exact ih

theorem dget_mapUpd_self (d : Grams) (n v) (hmem : n ∈ keys d) :
    dget (mapUpd d n v) n = v := by
  induction d with
  | nil => simp [keys] at hmem
  | cons p d ih =>
    rw [mapUpd_cons]
    by_cases hp : p.1 = n
    · rw [if_pos (beqT hp), dget_cons, if_pos (beqT rfl)]
    · rw [if_neg (beqNT hp), dget_cons, if_neg (beqNT hp)]
      apply ih
      simp only [keys, List.map_cons, List.mem_cons] at hmem
      exact hmem.resolve_left (fun e => hp e.symm)

theorem dget_append_single_ne (d : Grams) (n v m) (h : m ≠ n) :
    dget (d ++ [(n, v)]) m = dget d m := by
  induction d with
  | nil =>
    simp only [List.nil_append]
    rw [dget_cons, if_neg (beqNT (fun e => h e.symm))]
  | cons p d ih =>
    rw [List.cons_append, dget_cons, dget_cons]
    by_cases hpm : p.1 = m
    · rw [if_pos (beqT hpm), if_pos (beqT hpm)]
    · rw [if_neg (beqNT hpm), if_neg (beqNT hpm)]
      exact ih

theorem dget_append_single_self (d : Grams) (n v) (hnot : n ∉ keys d) :
    dget (d ++ [(n, v)]) n = v := by
  induction d with
  | nil =>
    simp only [List.nil_append]
    rw [dget_cons, if_pos (beqT rfl)]
  | cons p d ih =>
    simp only [keys, List.map_cons, List.mem_cons, not_or] at hnot
    rw [List.cons_append, dget_cons, if_neg (beqNT (fun e => hnot.1 e.symm))]
    exact ih (by simpa [keys] using hnot.2)

theorem dget_dset_self (d : Grams) (n : String) (v : ℚ) :
    dget (dset d n v) n = v := by
  by_cases h : (d.any fun p => p.1 == n) = true
  · rw [dset_of_any d n v h]
    exact dget_mapUpd_self d n v ((mem_keys_iff_any d n).2 h)
  · rw [dset_of_not_any d n v h]
    exact dget_append_single_self d n v (fun hm => h ((mem_keys_iff_any d n).1 hm))

theorem dget_dset_ne (d : Grams) (n m : String) (v : ℚ) (h : m ≠ n) :
    dget (dset d n v) m = dget d m := by
  by_cases ha : (d.any fun p => p.1 == n) = true
  · rw [dset_of_any d n v ha]
    exact dget_mapUpd_ne d n v m h
  · rw [dset_of_not_any d n v ha]
    exact dget_append_single_ne d n v m h

theorem keys_mapUpd (d : Grams) (n : String) (v : ℚ) :
    keys (mapUpd d n v) = keys d := by
  unfold keys mapUpd
  rw [List.map_map]
  apply List.map_congr_left
  intro p _
  by_cases hp : p.1 = n
  · rw [Function.comp_apply, if_pos (beqT hp)]
    exact hp.symm
  · rw [Function.comp_apply, if_neg (beqNT hp)]

theorem keys_dset_mem (d : Grams) (n : String) (v : ℚ) (h : n ∈ keys d) :
    keys (dset d n v) = keys d := by
  rw [dset_of_any d n v ((mem_keys_iff_any d n).1 h)]
  exact keys_mapUpd d n v

theorem dget_eq_zero_of_not_mem (d : Grams) (n : String) (h : n ∉ keys d) :
    dget d n = 0 := by
  induction d with
  | nil => rfl
  | cons p d ih =>
    simp only [keys, List.map_cons, List.mem_cons, not_or] at h
    rw [dget_cons, if_neg (beqNT (fun e => h.1 e.symm))]
    exact ih (by simpa [keys] using h.2)

/-! ### The proportional pass, residual pass and commitment written as
explicit per-item quantities -/

/-- The grams the proportional pass considers for one item
(before the positivity guard). -/
def propGrams (target R : ℚ) (it : RItem) : ℚ :=
  min it.weight
    ((target * ((it.weight * it.kcalPerG) / R)) / max it.kcalPerG eps9)

/-- The grams the proportional pass actually adds for one item. -/
def propAdd (target R : ℚ) (it : RItem) : ℚ :=
  if it.weight ≤ eps9 then 0
  else if 0 < propGrams target R it then propGrams target R it else 0

theorem propStep_eq (target R : ℚ) (d : Grams) (it : RItem) :
    propStep target R d it =
      if it.weight ≤ eps9 then d
      else if 0 < propGrams target R it then
        dset d it.name (dget d it.name + propGrams target R it)
      else d := rfl

/-- The mass headroom of one item in the residual pass
(`max(0.0, item["weight"] - current_assigned)`). -/
def residCan (d : Grams) (it : RItem) : ℚ :=
  max 0 (it.weight - dget d it.name)

/-- The grams the residual pass considers adding for one item. -/
def residAdd (res : ℚ) (d : Grams) (it : RItem) : ℚ :=
  min (residCan d it) (res / max it.kcalPerG eps9)

theorem residStep_eq (s : ℚ × Grams) (it : RItem) :
    residStep s it =
      if s.1 ≤ eps6 then s
      else if it.weight ≤ eps9 then s
      else if 0 < residAdd s.1 s.2 it then
        (s.1 - residAdd s.1 s.2 it * max it.kcalPerG eps9,
         dset s.2 it.name (dget s.2 it.name + residAdd s.1 s.2 it))
      else s := rfl

/-- The grams finally charged for one item: `max(0.0, min(grams, weight))`. -/
def chargedOf (d : Grams) (it : RItem) : ℚ :=
  max 0 (min (dget d it.name) it.weight)

/-- The item's weight after the commitment loop (subtract when charged,
flooring sub-`1e-9` residues to zero). -/
def newWeight (d : Grams) (it : RItem) : ℚ :=
  if 0 < chargedOf d it then
    (if it.weight - chargedOf d it < eps9 then 0 else it.weight - chargedOf d it)
  else it.weight

/-- The updated remaining item after the commitment loop. -/
def chargeItem (d : Grams) (it : RItem) : RItem :=
  ⟨it.name, newWeight d it, it.kcalPerG⟩

theorem chargeDay_cons (d : Grams) (it : RItem) (rest : List RItem) :
    chargeDay d (it :: rest) =
      (if 0 < chargedOf d it then
        (it.name, chargedOf d it) :: (chargeDay d rest).1
       else (chargeDay d rest).1,
       chargeItem d it :: (chargeDay d rest).2) := by
  show (let grams := max 0 (min (dget d it.name) it.weight);
        let x := chargeDay d rest;
        if 0 < grams then
          let w := it.weight - grams
          let w2 := if w < eps9 then 0 else w
          ((it.name, grams) :: x.1, ⟨it.name, w2, it.kcalPerG⟩ :: x.2)
        else (x.1, ⟨it.name, it.weight, it.kcalPerG⟩ :: x.2)) = _
  by_cases h : 0 < chargedOf d it
  · simp only [chargedOf] at h
    simp [chargedOf, chargeItem, newWeight, h]
  · simp only [chargedOf] at h
    simp [chargedOf, chargeItem, newWeight, h]

theorem chargeDay_snd (d : Grams) :
    ∀ rem : List RItem, (chargeDay d rem).2 = rem.map (chargeItem d) := by
  intro rem
  induction rem with
  | nil => rfl
  | cons it rest ih => rw [chargeDay_cons, List.map_cons, ← ih]

theorem chargeDay_fst (d : Grams) :
    ∀ rem : List RItem,
      (chargeDay d rem).1 = rem.filterMap
        (fun it => if 0 < chargedOf d it then
          some (it.name, chargedOf d it) else none) := by
  intro rem
  induction rem with
  | nil => rfl
  | cons it rest ih =>
    rw [chargeDay_cons, List.filterMap_cons]
    by_cases h : 0 < chargedOf d it
    · rw [if_pos h, if_pos h, ih]
    · rw [if_neg h, if_neg h, ih]

/-! ### Facts about `initAssigned`, `firstK`, `dictKcal` -/

theorem mapUpd_of_not_mem (d : Grams) (n : String) (v : ℚ) (h : n ∉ keys d) :
    mapUpd d n v = d := by
  induction d with
  | nil => rfl
  | cons p d ih =>
    simp only [keys, List.map_cons, List.mem_cons, not_or] at h
    rw [mapUpd_cons, if_neg (beqNT (fun e => h.1 e.symm))]
    rw [ih (by simpa [keys] using h.2)]

theorem keys_dset_not_mem (d : Grams) (n : String) (v : ℚ) (h : n ∉ keys d) :
    keys (dset d n v) = keys d ++ [n] := by
  rw [dset_of_not_any d n v (fun ha => h ((mem_keys_iff_any d n).2 ha))]
  simp [keys]

theorem dset_entry_cases (d : Grams) (n : String) (v : ℚ) :
    ∀ p ∈ dset d n v, p = (n, v) ∨ p ∈ d := by
  intro p hp
  unfold dset at hp
  by_cases ha : (d.any fun q => q.1 == n) = true
  · rw [if_pos ha] at hp
    obtain ⟨q, hq, he⟩ := List.mem_map.1 hp
    by_cases hqn : q.1 = n
    · left
      rw [← he, if_pos (beqT hqn)]
    · right
      rw [← he, if_neg (beqNT hqn)]
      exact hq
  · rw [if_neg ha] at hp
    rcases List.mem_append.1 hp with h | h
    · exact Or.inr h
    · exact Or.inl (by simpa using h)

theorem initAssigned_vals (rem : List RItem) (n : String) :
    dget (initAssigned rem) n = 0 := by
  have key : ∀ (l : List RItem) (d : Grams), (∀ p ∈ d, p.2 = 0) →
      ∀ p ∈ l.foldl (fun d it => dset d it.name 0) d, p.2 = 0 := by
    intro l
    induction l with
    | nil => intro d hd p hp; exact hd p hp
    | cons it rest ih =>
      intro d hd p hp
      refine ih (dset d it.name 0) ?_ p hp
      intro q hq
      rcases dset_entry_cases d it.name 0 q hq with h | h
      · rw [h]
      · exact hd q h
  have hall : ∀ p ∈ initAssigned rem, p.2 = 0 := key rem [] (by simp)
  unfold dget
  cases hf : (initAssigned rem).find? (fun p => p.1 == n) with
  | none => rfl
  | some p =>
    have := hall p (List.mem_of_find?_eq_some hf)
    simp [this]

theorem keys_initAssigned (rem : List RItem) (hnd : (names rem).Nodup) :
    keys (initAssigned rem) = names rem := by
  have key : ∀ (l : List RItem) (d : Grams), (names l).Nodup →
      (∀ it ∈ l, it.name ∉ keys d) →
      keys (l.foldl (fun d it => dset d it.name 0) d) = keys d ++ names l := by
    intro l
    induction l with
    | nil => intro d _ _; simp [names]
    | cons it rest ih =>
      intro d hnd hfresh
      simp only [names, List.map_cons, List.nodup_cons] at hnd
      have h1 : it.name ∉ keys d := hfresh it (by simp)
      have step : keys (dset d it.name 0) = keys d ++ [it.name] :=
        keys_dset_not_mem d it.name 0 h1
      have h2 : ∀ it' ∈ rest, it'.name ∉ keys (dset d it.name 0) := by
        intro it' hit'
        rw [step]
        intro hm
        rcases List.mem_append.1 hm with h | h
        · exact hfresh it' (by simp [hit']) h
        · have : it'.name = it.name := by simpa using h
          exact hnd.1 (this ▸ List.mem_map_of_mem RItem.name hit')
      have := ih (dset d it.name 0) hnd.2 h2
      simp only [List.foldl_cons]
      rw [this, step, List.append_assoc]
      rfl
  have h0 : ∀ it ∈ rem, it.name ∉ keys ([] : Grams) := by
    intro it _ h
    simp [keys] at h
  simpa [initAssigned, keys] using key rem [] hnd h0

theorem firstK_cons (it : RItem) (rem : List RItem) (n : String) :
    firstK (it :: rem) n =
      if (it.name == n) = true then it.kcalPerG else firstK rem n := by
  unfold firstK
  simp only [List.find?_cons]
  cases h : (it.name == n) with
  | true => simp
  | false => simp

theorem firstK_of_mem (rem : List RItem) (hnd : (names rem).Nodup) :
    ∀ it ∈ rem, firstK rem it.name = it.kcalPerG := by
  induction rem with
  | nil => intro it h; simp at h
  | cons h0 rest ih =>
    intro it hit
    simp only [names, List.map_cons, List.nodup_cons] at hnd
    rcases List.mem_cons.1 hit with he | hm
    · rw [he, firstK_cons, if_pos (beqT rfl)]
    · have hne : h0.name ≠ it.name := by
        intro e
        exact hnd.1 (e ▸ List.mem_map_of_mem RItem.name hm)
      rw [firstK_cons, if_neg (beqNT hne)]
      exact ih hnd.2 it hm

theorem dictKcal_nil (rem : List RItem) : dictKcal rem [] = 0 := rfl

theorem dictKcal_cons (rem : List RItem) (p : String × ℚ) (d : Grams) :
    dictKcal rem (p :: d) = p.2 * firstK rem p.1 + dictKcal rem d := by
  simp [dictKcal]

theorem dictKcal_dset (rem : List RItem) (d : Grams) (n : String) (v : ℚ)
    (hnd : (keys d).Nodup) (hmem : n ∈ keys d) :
    dictKcal rem (dset d n v) =
      dictKcal rem d + (v - dget d n) * firstK rem n := by
  rw [dset_of_any d n v ((mem_keys_iff_any d n).1 hmem)]
  induction d with
  | nil => simp [keys] at hmem
  | cons p d ih =>
    simp only [keys, List.map_cons, List.nodup_cons] at hnd
    rw [mapUpd_cons]
    by_cases hp : p.1 = n
    · have hnot : n ∉ keys d := by
        rw [← hp]
        simpa [keys] using hnd.1
      rw [if_pos (beqT hp), mapUpd_of_not_mem d n v hnot,
        dictKcal_cons, dictKcal_cons, dget_cons, if_pos (beqT hp), hp]
      ring
    · have hmem' : n ∈ keys d := by
        simp only [keys, List.map_cons, List.mem_cons] at hmem
        exact hmem.resolve_left (fun e => hp e.symm)
      rw [if_neg (beqNT hp), dictKcal_cons, dictKcal_cons,
        ih (by simpa [keys] using hnd.2) hmem', dget_cons, if_neg (beqNT hp)]
      ring

theorem propPass_cons (target R : ℚ) (it : RItem) (rest : List RItem)
    (d : Grams) :
    propPass target R (it :: rest) d =
      propPass target R rest (propStep target R d it) := rfl

theorem propStep_dget_ne (target R : ℚ) (d : Grams) (it : RItem) (m : String)
    (h : m ≠ it.name) : dget (propStep target R d it) m = dget d m := by
  rw [propStep_eq]
  by_cases hw : it.weight ≤ eps9
  · rw [if_pos hw]
  · rw [if_neg hw]
    by_cases hg : 0 < propGrams target R it
    · rw [if_pos hg]
      exact dget_dset_ne _ _ _ _ h
    · rw [if_neg hg]

theorem propStep_dget_self (target R : ℚ) (d : Grams) (it : RItem) :
    dget (propStep target R d it) it.name =
      dget d it.name + propAdd target R it := by
  rw [propStep_eq]
  unfold propAdd
  by_cases hw : it.weight ≤ eps9
  · rw [if_pos hw, if_pos hw, add_zero]
  · rw [if_neg hw, if_neg hw]
    by_cases hg : 0 < propGrams target R it
    · rw [if_pos hg, if_pos hg, dget_dset_self]
    · rw [if_neg hg, if_neg hg, add_zero]

theorem propStep_keys (target R : ℚ) (d : Grams) (it : RItem)
    (h : it.name ∈ keys d) : keys (propStep target R d it) = keys d := by
  rw [propStep_eq]
  by_cases hw : it.weight ≤ eps9
  · rw [if_pos hw]
  · rw [if_neg hw]
    by_cases hg : 0 < propGrams target R it
    · rw [if_pos hg]
      exact keys_dset_mem _ _ _ h
    · rw [if_neg hg]

theorem propPass_dget_not_mem (target R : ℚ) :
    ∀ (l : List RItem) (d : Grams) (n : String), n ∉ names l →
      dget (propPass target R l d) n = dget d n := by
  intro l
  induction l with
  | nil => intro d n _; rfl
  | cons it rest ih =>
    intro d n hn
    simp only [names, List.map_cons, List.mem_cons, not_or] at hn
    rw [propPass_cons, ih (propStep target R d it) n (by simpa [names] using hn.2)]
    exact propStep_dget_ne target R d it n hn.1

theorem propPass_keys (target R : ℚ) :
    ∀ (l : List RItem) (d : Grams), (∀ it ∈ l, it.name ∈ keys d) →
      keys (propPass target R l d) = keys d := by
  intro l
  induction l with
  | nil => intro d _; rfl
  | cons it rest ih =>
    intro d hsub
    have hk : keys (propStep target R d it) = keys d :=
      propStep_keys target R d it (hsub it (by simp))
    rw [propPass_cons, ih (propStep target R d it) (fun it' h' => by
      rw [hk]; exact hsub it' (by simp [h']))]
    exact hk

theorem propPass_dget_self (target R : ℚ) :
    ∀ (l : List RItem) (d : Grams), (names l).Nodup →
      ∀ it ∈ l, dget (propPass target R l d) it.name =
        dget d it.name + propAdd target R it := by
  intro l
  induction l with
  | nil => intro d _ it h; simp at h
  | cons h0 rest ih =>
    intro d hnd it hit
    simp only [names, List.map_cons, List.nodup_cons] at hnd
    rw [propPass_cons]
    rcases List.mem_cons.1 hit with he | hm
    · subst he
      rw [propPass_dget_not_mem target R rest (propStep target R d it) it.name
        (by simpa [names] using hnd.1)]
      exact propStep_dget_self target R d it
    · have hne : it.name ≠ h0.name := by
        intro e
        exact hnd.1 (e ▸ List.mem_map_of_mem RItem.name hm)
      rw [ih (propStep target R d h0) hnd.2 it hm,
        propStep_dget_ne target R d h0 it.name hne]

theorem dget_scale (d : Grams) (n : String) (s : ℚ) :
    dget (d.map fun p => (p.1, p.2 * s)) n = dget d n * s := by
  induction d with
  | nil => simp [dget]
  | cons p d ih =>
    rw [List.map_cons, dget_cons, dget_cons]
    by_cases hp : p.1 = n
    · rw [if_pos (beqT hp), if_pos (beqT hp)]
    · rw [if_neg (beqNT hp), if_neg (beqNT hp)]
      exact ih

theorem keys_scale (d : Grams) (s : ℚ) :
    keys (d.map fun p => (p.1, p.2 * s)) = keys d := by
  unfold keys
  rw [List.map_map]
  rfl

theorem dictKcal_scale (rem : List RItem) (d : Grams) (s : ℚ) :
    dictKcal rem (d.map fun p => (p.1, p.2 * s)) = dictKcal rem d * s := by
  induction d with
  | nil => simp [dictKcal]
  | cons p d ih =>
    rw [List.map_cons, dictKcal_cons, dictKcal_cons, ih]
    ring

theorem dict_sum_by_keys (d : Grams) (f : String → ℚ)
    (hnd : (keys d).Nodup) :
    (d.map (fun p => p.2 * f p.1)).sum =
      ((keys d).map (fun n => dget d n * f n)).sum := by
  induction d with
  | nil => rfl
  | cons p d ih =>
    simp only [keys, List.map_cons, List.nodup_cons] at hnd
    simp only [keys, List.map_cons, List.sum_cons]
    rw [dget_cons, if_pos (beqT rfl)]
    have hcongr : ∀ n ∈ List.map Prod.fst d,
        dget (p :: d) n * f n = dget d n * f n := by
      intro n hn
      rw [dget_cons, if_neg (beqNT (fun e => hnd.1 (by rw [e]; exact hn)))]
    simp only [keys] at ih
    rw [List.map_congr_left hcongr, ← ih hnd.2]

theorem dictKcal_by_rem (rem : List RItem) (d : Grams)
    (hk : keys d = names rem) (hnd : (keys d).Nodup) :
    dictKcal rem d =
      (rem.map (fun it => dget d it.name * firstK rem it.name)).sum := by
  unfold dictKcal
  rw [dict_sum_by_keys d _ hnd, hk]
  unfold names
  rw [List.map_map]
  rfl

/-! ### Facts about the residual top-up pass -/

theorem eps9_pos : (0:ℚ) < eps9 := by norm_num [eps9]

theorem eps6_pos : (0:ℚ) < eps6 := by norm_num [eps6]

theorem eps9_le_eps6 : eps9 ≤ eps6 := by norm_num [eps9, eps6]

theorem kpgMax_pos (it : RItem) : 0 < max it.kcalPerG eps9 :=
  lt_of_lt_of_le eps9_pos (le_max_right _ _)

theorem residPass_eq_foldl (res : ℚ) (rem : List RItem) (d : Grams) :
    residPass res rem d = rem.foldl residStep (res, d) := rfl

theorem residStep_fst_le (s : ℚ × Grams) (it : RItem) :
    (residStep s it).1 ≤ s.1 := by
  rw [residStep_eq]
  by_cases h1 : s.1 ≤ eps6
  · rw [if_pos h1]
  · rw [if_neg h1]
    by_cases h2 : it.weight ≤ eps9
    · rw [if_pos h2]
    · rw [if_neg h2]
      by_cases h3 : 0 < residAdd s.1 s.2 it
      · rw [if_pos h3]
        have : 0 ≤ residAdd s.1 s.2 it * max it.kcalPerG eps9 :=
          mul_nonneg (le_of_lt h3) (le_of_lt (kpgMax_pos it))
        simp only
        linarith
      · rw [if_neg h3]

theorem residStep_fst_nonneg (s : ℚ × Grams) (it : RItem) (h : 0 ≤ s.1) :
    0 ≤ (residStep s it).1 := by
  rw [residStep_eq]
  by_cases h1 : s.1 ≤ eps6
  · rw [if_pos h1]; exact h
  · rw [if_neg h1]
    by_cases h2 : it.weight ≤ eps9
    · rw [if_pos h2]; exact h
    · rw [if_neg h2]
      by_cases h3 : 0 < residAdd s.1 s.2 it
      · rw [if_pos h3]
        simp only
        have hk := kpgMax_pos it
        have : residAdd s.1 s.2 it ≤ s.1 / max it.kcalPerG eps9 :=
          min_le_right _ _
        have hmul : residAdd s.1 s.2 it * max it.kcalPerG eps9 ≤
            (s.1 / max it.kcalPerG eps9) * max it.kcalPerG eps9 :=
          mul_le_mul_of_nonneg_right this (le_of_lt hk)
        rw [div_mul_cancel₀ _ (ne_of_gt hk)] at hmul
        linarith
      · rw [if_neg h3]; exact h

theorem residFold_fst_le (l : List RItem) :
    ∀ s : ℚ × Grams, (l.foldl residStep s).1 ≤ s.1 := by
  induction l with
  | nil => intro s; exact le_refl _
  | cons it rest ih =>
    intro s
    rw [List.foldl_cons]
    exact le_trans (ih (residStep s it)) (residStep_fst_le s it)

theorem residFold_fst_nonneg (l : List RItem) :
    ∀ s : ℚ × Grams, 0 ≤ s.1 → 0 ≤ (l.foldl residStep s).1 := by
  induction l with
  | nil => intro s h; exact h
  | cons it rest ih =>
    intro s h
    rw [List.foldl_cons]
    exact ih (residStep s it) (residStep_fst_nonneg s it h)

theorem residStep_dget_ne (s : ℚ × Grams) (it : RItem) (m : String)
    (h : m ≠ it.name) : dget (residStep s it).2 m = dget s.2 m := by
  rw [residStep_eq]
  by_cases h1 : s.1 ≤ eps6
  · rw [if_pos h1]
  · rw [if_neg h1]
    by_cases h2 : it.weight ≤ eps9
    · rw [if_pos h2]
    · rw [if_neg h2]
      by_cases h3 : 0 < residAdd s.1 s.2 it
      · rw [if_pos h3]
        exact dget_dset_ne _ _ _ _ h
      · rw [if_neg h3]

theorem residStep_keys (s : ℚ × Grams) (it : RItem)
    (h : it.name ∈ keys s.2) : keys (residStep s it).2 = keys s.2 := by
  rw [residStep_eq]
  by_cases h1 : s.1 ≤ eps6
  · rw [if_pos h1]
  · rw [if_neg h1]
    by_cases h2 : it.weight ≤ eps9
    · rw [if_pos h2]
    · rw [if_neg h2]
      by_cases h3 : 0 < residAdd s.1 s.2 it
      · rw [if_pos h3]
        exact keys_dset_mem _ _ _ h
      · rw [if_neg h3]

theorem residFold_dget_not_mem (l : List RItem) :
    ∀ (s : ℚ × Grams) (m : String), m ∉ names l →
      dget (l.foldl residStep s).2 m = dget s.2 m := by
  induction l with
  | nil => intro s m _; rfl
  | cons it rest ih =>
    intro s m hm
    simp only [names, List.map_cons, List.mem_cons, not_or] at hm
    rw [List.foldl_cons, ih (residStep s it) m (by simpa [names] using hm.2)]
    exact residStep_dget_ne s it m hm.1

theorem residFold_keys (l : List RItem) :
    ∀ s : ℚ × Grams, (∀ it ∈ l, it.name ∈ keys s.2) →
      keys (l.foldl residStep s).2 = keys s.2 := by
  induction l with
  | nil => intro s _; rfl
  | cons it rest ih =>
    intro s hsub
    rw [List.foldl_cons]
    have hk : keys (residStep s it).2 = keys s.2 :=
      residStep_keys s it (hsub it (by simp))
    rw [ih (residStep s it) (fun it' h' => by
      rw [hk]; exact hsub it' (by simp [h'])), hk]

theorem residStep_dget_ge (s : ℚ × Grams) (it : RItem) (m : String) :
    dget s.2 m ≤ dget (residStep s it).2 m := by
  rw [residStep_eq]
  by_cases h1 : s.1 ≤ eps6
  · rw [if_pos h1]
  · rw [if_neg h1]
    by_cases h2 : it.weight ≤ eps9
    · rw [if_pos h2]
    · rw [if_neg h2]
      by_cases h3 : 0 < residAdd s.1 s.2 it
      · rw [if_pos h3]
        by_cases hm : m = it.name
        · subst hm
          rw [dget_dset_self]
          linarith
        · rw [dget_dset_ne _ _ _ _ hm]
      · rw [if_neg h3]

theorem residFold_dget_ge (l : List RItem) :
    ∀ (s : ℚ × Grams) (m : String),
      dget s.2 m ≤ dget (l.foldl residStep s).2 m := by
  induction l with
  | nil => intro s m; exact le_refl _
  | cons it rest ih =>
    intro s m
    rw [List.foldl_cons]
    exact le_trans (residStep_dget_ge s it m) (ih (residStep s it) m)

theorem residStep_dget_le_weight (s : ℚ × Grams) (it : RItem)
    (h : dget s.2 it.name ≤ it.weight) :
    dget (residStep s it).2 it.name ≤ it.weight := by
  rw [residStep_eq]
  by_cases h1 : s.1 ≤ eps6
  · rw [if_pos h1]; exact h
  · rw [if_neg h1]
    by_cases h2 : it.weight ≤ eps9
    · rw [if_pos h2]; exact h
    · rw [if_neg h2]
      by_cases h3 : 0 < residAdd s.1 s.2 it
      · rw [if_pos h3]
        simp only
        rw [dget_dset_self]
        have h4 : residAdd s.1 s.2 it ≤ residCan s.2 it := min_le_left _ _
        have h5 : residCan s.2 it = it.weight - dget s.2 it.name := by
          unfold residCan
          rw [max_eq_right (by linarith)]
        linarith
      · rw [if_neg h3]; exact h

theorem residFold_dget_le_weight (l : List RItem) :
    ∀ s : ℚ × Grams, (names l).Nodup →
      (∀ it ∈ l, dget s.2 it.name ≤ it.weight) →
      ∀ it ∈ l, dget (l.foldl residStep s).2 it.name ≤ it.weight := by
  induction l with
  | nil => intro s _ _ it h; simp at h
  | cons h0 rest ih =>
    intro s hnd hle it hit
    simp only [names, List.map_cons, List.nodup_cons] at hnd
    rw [List.foldl_cons]
    have hrest : ∀ it' ∈ rest,
        dget (residStep s h0).2 it'.name ≤ it'.weight := by
      intro it' h'
      rw [residStep_dget_ne s h0 it'.name (fun e => hnd.1
        (e ▸ List.mem_map_of_mem RItem.name h'))]
      exact hle it' (by simp [h'])
    rcases List.mem_cons.1 hit with he | hm
    · subst he
      rw [residFold_dget_not_mem rest (residStep s it) it.name
        (by simpa [names] using hnd.1)]
      exact residStep_dget_le_weight s it (hle it (by simp))
    · exact ih (residStep s h0) hnd.2 hrest it hm

theorem residStep_energy_le (rem : List RItem) (s : ℚ × Grams) (it : RItem)
    (hnd : (keys s.2).Nodup) (hmem : it.name ∈ keys s.2)
    (hfk : firstK rem it.name = it.kcalPerG) :
    dictKcal rem (residStep s it).2 + (residStep s it).1 ≤
      dictKcal rem s.2 + s.1 := by
  rw [residStep_eq]
  by_cases h1 : s.1 ≤ eps6
  · rw [if_pos h1]
  · rw [if_neg h1]
    by_cases h2 : it.weight ≤ eps9
    · rw [if_pos h2]
    · rw [if_neg h2]
      by_cases h3 : 0 < residAdd s.1 s.2 it
      · rw [if_pos h3]
        simp only
        rw [dictKcal_dset rem s.2 it.name _ hnd hmem, hfk]
        have hle : it.kcalPerG ≤ max it.kcalPerG eps9 := le_max_left _ _
        have := mul_le_mul_of_nonneg_left hle (le_of_lt h3)
        ring_nf
        nlinarith [this]
      · rw [if_neg h3]

theorem residStep_energy_eq (rem : List RItem) (s : ℚ × Grams) (it : RItem)
    (hnd : (keys s.2).Nodup) (hmem : it.name ∈ keys s.2)
    (hfk : firstK rem it.name = it.kcalPerG) (hk9 : eps9 ≤ it.kcalPerG) :
    dictKcal rem (residStep s it).2 + (residStep s it).1 =
      dictKcal rem s.2 + s.1 := by
  rw [residStep_eq]
  by_cases h1 : s.1 ≤ eps6
  · rw [if_pos h1]
  · rw [if_neg h1]
    by_cases h2 : it.weight ≤ eps9
    · rw [if_pos h2]
    · rw [if_neg h2]
      by_cases h3 : 0 < residAdd s.1 s.2 it
      · rw [if_pos h3]
        simp only
        rw [dictKcal_dset rem s.2 it.name _ hnd hmem, hfk,
          max_eq_left hk9]
        ring
      · rw [if_neg h3]

theorem residFold_energy_le (rem : List RItem) (l : List RItem) :
    ∀ s : ℚ × Grams, (keys s.2).Nodup → (∀ it ∈ l, it.name ∈ keys s.2) →
      (∀ it ∈ l, firstK rem it.name = it.kcalPerG) →
      dictKcal rem (l.foldl residStep s).2 + (l.foldl residStep s).1 ≤
        dictKcal rem s.2 + s.1 := by
  induction l with
  | nil => intro s _ _ _; exact le_refl _
  | cons it rest ih =>
    intro s hnd hsub hfk
    rw [List.foldl_cons]
    have hk : keys (residStep s it).2 = keys s.2 :=
      residStep_keys s it (hsub it (by simp))
    refine le_trans (ih (residStep s it) (by rw [hk]; exact hnd)
      (fun it' h' => by rw [hk]; exact hsub it' (by simp [h']))
      (fun it' h' => hfk it' (by simp [h']))) ?_
    exact residStep_energy_le rem s it hnd (hsub it (by simp))
      (hfk it (by simp))

theorem residFold_energy_eq (rem : List RItem) (l : List RItem) :
    ∀ s : ℚ × Grams, (keys s.2).Nodup → (∀ it ∈ l, it.name ∈ keys s.2) →
      (∀ it ∈ l, firstK rem it.name = it.kcalPerG) →
      (∀ it ∈ l, eps9 ≤ it.kcalPerG) →
      dictKcal rem (l.foldl residStep s).2 + (l.foldl residStep s).1 =
        dictKcal rem s.2 + s.1 := by
  induction l with
  | nil => intro s _ _ _ _; rfl
  | cons it rest ih =>
    intro s hnd hsub hfk hk9
    rw [List.foldl_cons]
    have hk : keys (residStep s it).2 = keys s.2 :=
      residStep_keys s it (hsub it (by simp))
    rw [ih (residStep s it) (by rw [hk]; exact hnd)
      (fun it' h' => by rw [hk]; exact hsub it' (by simp [h']))
      (fun it' h' => hfk it' (by simp [h']))
      (fun it' h' => hk9 it' (by simp [h']))]
    exact residStep_energy_eq rem s it hnd (hsub it (by simp))
      (hfk it (by simp)) (hk9 it (by simp))

theorem residFold_at_capacity (l : List RItem) :
    ∀ s : ℚ × Grams, (names l).Nodup →
      (∀ it ∈ l, dget s.2 it.name ≤ it.weight) →
      eps6 < (l.foldl residStep s).1 →
      ∀ it ∈ l, eps9 < it.weight →
        dget (l.foldl residStep s).2 it.name = it.weight := by
  induction l with
  | nil => intro s _ _ _ it h; simp at h
  | cons h0 rest ih =>
    intro s hnd hle hres it hit hw
    simp only [names, List.map_cons, List.nodup_cons] at hnd
    rw [List.foldl_cons] at hres ⊢
    have hs1 : eps6 < (residStep s h0).1 :=
      lt_of_lt_of_le hres (residFold_fst_le rest (residStep s h0))
    have hs0 : ¬ s.1 ≤ eps6 := by
      intro hc
      exact absurd (le_trans (residStep_fst_le s h0) hc) (not_le.2 hs1)
    have hrest : ∀ it' ∈ rest,
        dget (residStep s h0).2 it'.name ≤ it'.weight := by
      intro it' h'
      rw [residStep_dget_ne s h0 it'.name (fun e => hnd.1
        (e ▸ List.mem_map_of_mem RItem.name h'))]
      exact hle it' (by simp [h'])
    rcases List.mem_cons.1 hit with he | hm
    · subst he
      rw [residFold_dget_not_mem rest (residStep s it) it.name
        (by simpa [names] using hnd.1)]
      have hcur : dget s.2 it.name ≤ it.weight := hle it (by simp)
      rw [residStep_eq, if_neg hs0, if_neg (not_le.2 hw)]
      have hcan : residCan s.2 it = it.weight - dget s.2 it.name := by
        unfold residCan
        rw [max_eq_right (by linarith)]
      by_cases hcmp : residCan s.2 it ≤ s.1 / max it.kcalPerG eps9
      · have hadd : residAdd s.1 s.2 it = residCan s.2 it :=
          min_eq_left hcmp
        by_cases h3 : 0 < residAdd s.1 s.2 it
        · rw [if_pos h3]
          simp only
          rw [dget_dset_self, hadd, hcan]
          ring
        · rw [if_neg h3]
          have : residAdd s.1 s.2 it = 0 := by
            have h4 : 0 ≤ residCan s.2 it := le_max_left 0 _
            rw [hadd]
            rcases lt_or_eq_of_le h4 with h5 | h5
            · exact absurd (by rw [hadd] at h3; exact h3) (by
                intro hc
                exact h3 (by rw [hadd]; exact h5))
            · exact h5.symm
          rw [hadd] at this
          rw [hcan] at this
          linarith
      · exfalso
        push_neg at hcmp
        have hadd : residAdd s.1 s.2 it = s.1 / max it.kcalPerG eps9 :=
          min_eq_right (le_of_lt hcmp)
        have hpos : 0 < residAdd s.1 s.2 it := by
          rw [hadd]
          exact div_pos (lt_trans eps6_pos (not_le.1 hs0)) (kpgMax_pos it)
        have hzero : (residStep s it).1 = 0 := by
          rw [residStep_eq, if_neg hs0, if_neg (not_le.2 hw), if_pos hpos]
          simp only
          rw [hadd, div_mul_cancel₀ _ (ne_of_gt (kpgMax_pos it))]
          ring
        rw [hzero] at hs1
        exact absurd hs1 (not_lt.2 (le_of_lt eps6_pos))
    · exact ih (residStep s h0) hnd.2 hrest hres it hm hw

theorem residFold_small_untouched (l : List RItem) :
    ∀ s : ℚ × Grams, (names l).Nodup →
      ∀ it ∈ l, it.weight ≤ eps9 →
        dget (l.foldl residStep s).2 it.name = dget s.2 it.name := by
  induction l with
  | nil => intro s _ it h; simp at h
  | cons h0 rest ih =>
    intro s hnd it hit hw
    simp only [names, List.map_cons, List.nodup_cons] at hnd
    rw [List.foldl_cons]
    rcases List.mem_cons.1 hit with he | hm
    · subst he
      rw [residFold_dget_not_mem rest (residStep s it) it.name
        (by simpa [names] using hnd.1)]
      rw [residStep_eq]
      by_cases h1 : s.1 ≤ eps6
      · rw [if_pos h1]
      · rw [if_neg h1, if_pos hw]
    · have hne : it.name ≠ h0.name := by
        intro e
        exact hnd.1 (e ▸ List.mem_map_of_mem RItem.name hm)
      rw [ih (residStep s h0) hnd.2 it hm hw,
        residStep_dget_ne s h0 it.name hne]

/-! ### Quantitative facts about the per-item passes -/

theorem sum_map_mul_const {α : Type} (l : List α) (c : ℚ) (f : α → ℚ) :
    (l.map fun a => c * f a).sum = c * (l.map f).sum := by
  induction l with
  | nil => simp
  | cons a l ih =>
    simp only [List.map_cons, List.sum_cons, ih]
    ring

theorem sum_map_sub {α : Type} (l : List α) (f g : α → ℚ) :
    (l.map fun a => f a - g a).sum = (l.map f).sum - (l.map g).sum := by
  induction l with
  | nil => simp
  | cons a l ih =>
    simp only [List.map_cons, List.sum_cons, ih]
    ring

theorem propAdd_nonneg (target R : ℚ) (it : RItem) :
    0 ≤ propAdd target R it := by
  unfold propAdd
  by_cases h1 : it.weight ≤ eps9
  · rw [if_pos h1]
  · rw [if_neg h1]
    by_cases h2 : 0 < propGrams target R it
    · rw [if_pos h2]; exact le_of_lt h2
    · rw [if_neg h2]

theorem propAdd_le_weight (target R : ℚ) (it : RItem) (hw : 0 ≤ it.weight) :
    propAdd target R it ≤ it.weight := by
  unfold propAdd
  by_cases h1 : it.weight ≤ eps9
  · rw [if_pos h1]; exact hw
  · rw [if_neg h1]
    by_cases h2 : 0 < propGrams target R it
    · rw [if_pos h2]
      exact min_le_left _ _
    · rw [if_neg h2]; exact hw

theorem propAdd_small (target R : ℚ) (it : RItem) (h : it.weight ≤ eps9) :
    propAdd target R it = 0 := by
  unfold propAdd
  rw [if_pos h]

theorem propAdd_energy_le_share (target R : ℚ) (it : RItem)
    (hk : 0 ≤ it.kcalPerG) (ht : 0 ≤ target) (hR : 0 < R)
    (hw : 0 ≤ it.weight) :
    propAdd target R it * it.kcalPerG ≤
      target * ((it.weight * it.kcalPerG) / R) := by
  have hshare : 0 ≤ target * ((it.weight * it.kcalPerG) / R) :=
    mul_nonneg ht (div_nonneg (mul_nonneg hw hk) (le_of_lt hR))
  unfold propAdd
  by_cases h1 : it.weight ≤ eps9
  · rw [if_pos h1, zero_mul]; exact hshare
  · rw [if_neg h1]
    by_cases h2 : 0 < propGrams target R it
    · rw [if_pos h2]
      have hkpg := kpgMax_pos it
      have hle : propGrams target R it ≤
          (target * ((it.weight * it.kcalPerG) / R)) / max it.kcalPerG eps9 :=
        min_le_right _ _
      have hk2 : it.kcalPerG ≤ max it.kcalPerG eps9 := le_max_left _ _
      have step1 : propGrams target R it * it.kcalPerG ≤
          ((target * ((it.weight * it.kcalPerG) / R)) / max it.kcalPerG eps9) *
            it.kcalPerG :=
        mul_le_mul_of_nonneg_right hle hk
      refine le_trans step1 ?_
      rw [div_mul_eq_mul_div, div_le_iff₀ hkpg]
      have := mul_le_mul_of_nonneg_left hk2 hshare
      nlinarith
    · rw [if_neg h2, zero_mul]; exact hshare

theorem propAdd_exact (target R : ℚ) (it : RItem)
    (hk9 : eps9 ≤ it.kcalPerG) (hwbig : eps9 < it.weight)
    (htR : target ≤ R) (hR : 0 < R) (ht : 0 < target) :
    propAdd target R it = target * it.weight / R := by
  have hk0 : (0:ℚ) < it.kcalPerG := lt_of_lt_of_le eps9_pos hk9
  have hgr : propGrams target R it = target * it.weight / R := by
    unfold propGrams
    rw [max_eq_left hk9]
    have hq : (target * ((it.weight * it.kcalPerG) / R)) / it.kcalPerG =
        target * it.weight / R := by
      field_simp
      ring
    rw [hq]
    refine min_eq_right ?_
    rw [div_le_iff₀ hR]
    have := mul_le_mul_of_nonneg_right htR (le_of_lt (lt_trans eps9_pos hwbig))
    nlinarith
  unfold propAdd
  rw [if_neg (not_le.2 hwbig), hgr]
  rw [if_pos (div_pos (mul_pos ht (lt_trans eps9_pos hwbig)) hR)]

/-! ### Facts about the commitment loop -/

theorem charged_nonneg (d : Grams) (it : RItem) : 0 ≤ chargedOf d it :=
  le_max_left 0 _

theorem charged_le_weight (d : Grams) (it : RItem) (hw : 0 ≤ it.weight) :
    chargedOf d it ≤ it.weight :=
  max_le hw (min_le_right _ _)

theorem charged_le_dget (d : Grams) (it : RItem)
    (hv : 0 ≤ dget d it.name) : chargedOf d it ≤ dget d it.name :=
  max_le hv (min_le_left _ _)

theorem charged_eq_dget (d : Grams) (it : RItem)
    (h0 : 0 ≤ dget d it.name) (hw : dget d it.name ≤ it.weight) :
    chargedOf d it = dget d it.name := by
  unfold chargedOf
  rw [min_eq_left hw, max_eq_right h0]

theorem charged_eq_zero_of_dget_zero (d : Grams) (it : RItem)
    (h : dget d it.name = 0) : chargedOf d it = 0 := by
  unfold chargedOf
  rw [h]
  rcases le_or_lt 0 it.weight with hw | hw
  · rw [min_eq_left hw, max_self]
  · rw [min_eq_right (le_of_lt hw), max_eq_left (le_of_lt hw)]

theorem newWeight_nonneg (d : Grams) (it : RItem) (hw : 0 ≤ it.weight) :
    0 ≤ newWeight d it := by
  unfold newWeight
  by_cases h1 : 0 < chargedOf d it
  · rw [if_pos h1]
    by_cases h2 : it.weight - chargedOf d it < eps9
    · rw [if_pos h2]
    · rw [if_neg h2]
      have := not_lt.1 h2
      linarith [eps9_pos]
  · rw [if_neg h1]; exact hw

theorem charged_le_weight_of_pos (d : Grams) (it : RItem)
    (h : 0 < chargedOf d it) : chargedOf d it ≤ it.weight := by
  unfold chargedOf at *
  rcases max_cases 0 (min (dget d it.name) it.weight) with ⟨he, _⟩ | ⟨he, _⟩
  · rw [he] at h
    exact absurd h (lt_irrefl 0)
  · rw [he] at h ⊢
    exact min_le_right _ _

theorem newWeight_le_sub (d : Grams) (it : RItem) :
    newWeight d it ≤ it.weight - chargedOf d it := by
  unfold newWeight
  by_cases h1 : 0 < chargedOf d it
  · rw [if_pos h1]
    by_cases h2 : it.weight - chargedOf d it < eps9
    · rw [if_pos h2]
      have := charged_le_weight_of_pos d it h1
      linarith
    · rw [if_neg h2]
  · rw [if_neg h1]
    have : chargedOf d it = 0 :=
      le_antisymm (not_lt.1 h1) (charged_nonneg d it)
    rw [this]
    linarith

theorem newWeight_le_sub_nonneg (d : Grams) (it : RItem)
    (hw : 0 ≤ it.weight) : 0 ≤ it.weight - chargedOf d it := by
  have := charged_le_weight d it hw
  linarith

theorem newWeight_cases (d : Grams) (it : RItem) :
    newWeight d it = it.weight - chargedOf d it ∨
      (newWeight d it = 0 ∧ it.weight - chargedOf d it < eps9) := by
  unfold newWeight
  by_cases h1 : 0 < chargedOf d it
  · rw [if_pos h1]
    by_cases h2 : it.weight - chargedOf d it < eps9
    · rw [if_pos h2]
      exact Or.inr ⟨rfl, h2⟩
    · rw [if_neg h2]
      exact Or.inl rfl
  · rw [if_neg h1]
    have : chargedOf d it = 0 :=
      le_antisymm (not_lt.1 h1) (charged_nonneg d it)
    rw [this]
    exact Or.inl (by ring)

theorem newWeight_le_weight (d : Grams) (it : RItem) :
    newWeight d it ≤ it.weight := by
  have h1 := newWeight_le_sub d it
  have h2 := charged_nonneg d it
  linarith

theorem dayEnergy_chargeDay (cpg : String → ℚ) (d : Grams)
    (rem : List RItem) :
    dayEnergy cpg (chargeDay d rem).1 =
      (rem.map (fun it => chargedOf d it * cpg it.name)).sum := by
  rw [chargeDay_fst]
  induction rem with
  | nil => rfl
  | cons it rest ih =>
    rw [List.filterMap_cons, List.map_cons, List.sum_cons]
    by_cases h : 0 < chargedOf d it
    · rw [if_pos h]
      unfold dayEnergy at *
      rw [List.map_cons, List.sum_cons, ih]
    · rw [if_neg h]
      have hz : chargedOf d it = 0 :=
        le_antisymm (not_lt.1 h) (charged_nonneg d it)
      rw [ih, hz, zero_mul, zero_add]

/-- Grams of the name `n` inside one day bucket. -/
def dayAmount (n : String) (day : List (String × ℚ)) : ℚ :=
  ((day.filter (fun p => p.1 == n)).map Prod.snd).sum

theorem assignedTotal_nil (n : String) : assignedTotal n [] = 0 := rfl

theorem assignedTotal_cons (n : String) (day : List (String × ℚ))
    (ds : List (List (String × ℚ))) :
    assignedTotal n (day :: ds) = dayAmount n day + assignedTotal n ds := by
  simp [assignedTotal, dayAmount]

theorem dayAmount_cons (n : String) (p : String × ℚ)
    (day : List (String × ℚ)) :
    dayAmount n (p :: day) =
      (if (p.1 == n) = true then p.2 else 0) + dayAmount n day := by
  unfold dayAmount
  rw [List.filter_cons]
  by_cases h : (p.1 == n) = true
  · rw [if_pos h, if_pos h, List.map_cons, List.sum_cons]
  · rw [if_neg h, if_neg h, zero_add]

theorem dayAmount_not_mem (d : Grams) (rem : List RItem) (n : String)
    (h : n ∉ names rem) : dayAmount n (chargeDay d rem).1 = 0 := by
  induction rem with
  | nil => rfl
  | cons it rest ih =>
    simp only [names, List.map_cons, List.mem_cons, not_or] at h
    rw [chargeDay_cons]
    simp only
    have htail : dayAmount n (chargeDay d rest).1 = 0 :=
      ih (by simpa [names] using h.2)
    by_cases hc : 0 < chargedOf d it
    · rw [if_pos hc, dayAmount_cons,
        if_neg (beqNT (fun e => h.1 e.symm)), htail, zero_add]
    · rw [if_neg hc, htail]

theorem dayAmount_chargeDay (d : Grams) (rem : List RItem)
    (hnd : (names rem).Nodup) :
    ∀ it ∈ rem, dayAmount it.name (chargeDay d rem).1 = chargedOf d it := by
  induction rem with
  | nil => intro it h; simp at h
  | cons h0 rest ih =>
    intro it hit
    simp only [names, List.map_cons, List.nodup_cons] at hnd
    rw [chargeDay_cons]
    simp only
    rcases List.mem_cons.1 hit with he | hm
    · subst he
      have hrest0 : dayAmount it.name (chargeDay d rest).1 = 0 :=
        dayAmount_not_mem d rest it.name (by simpa [names] using hnd.1)
      by_cases hc : 0 < chargedOf d it
      · rw [if_pos hc, dayAmount_cons, if_pos (beqT rfl), hrest0, add_zero]
      · rw [if_neg hc, hrest0]
        exact (le_antisymm (not_lt.1 hc) (charged_nonneg d it)).symm
    · have hne : h0.name ≠ it.name := by
        intro e
        exact hnd.1 (e ▸ List.mem_map_of_mem RItem.name hm)
      by_cases hc : 0 < chargedOf d h0
      · rw [if_pos hc, dayAmount_cons, if_neg (beqNT hne), zero_add]
        exact ih hnd.2 it hm
      · rw [if_neg hc]
        exact ih hnd.2 it hm

/-! ### The assigned dict after the proportional pass -/

/-- The dict after the proportional pass of one loop iteration. -/
def propDict (cap R : ℚ) (rem : List RItem) : Grams :=
  propPass (min cap R) R rem (initAssigned rem)

theorem buildDayDict_eq (cap R : ℚ) (rem : List RItem) :
    buildDayDict cap R rem =
      if min cap R + eps6 < dictKcal rem (propDict cap R rem) then
        (propDict cap R rem).map
          (fun p => (p.1, p.2 *
            (min cap R / dictKcal rem (propDict cap R rem))))
      else if eps6 < max 0 (min cap R - dictKcal rem (propDict cap R rem))
      then
        (residPass (max 0 (min cap R - dictKcal rem (propDict cap R rem)))
          rem (propDict cap R rem)).2
      else propDict cap R rem := rfl

theorem propDict_keys (cap R : ℚ) (rem : List RItem)
    (hnd : (names rem).Nodup) : keys (propDict cap R rem) = names rem := by
  unfold propDict
  rw [propPass_keys _ _ rem (initAssigned rem) (fun it h => by
    rw [keys_initAssigned rem hnd]
    exact List.mem_map_of_mem RItem.name h)]
  exact keys_initAssigned rem hnd

theorem propDict_get (cap R : ℚ) (rem : List RItem)
    (hnd : (names rem).Nodup) :
    ∀ it ∈ rem, dget (propDict cap R rem) it.name =
      propAdd (min cap R) R it := by
  intro it hit
  unfold propDict
  rw [propPass_dget_self _ _ rem (initAssigned rem) hnd it hit,
    initAssigned_vals, zero_add]

theorem propDict_nonneg (cap R : ℚ) (rem : List RItem)
    (hnd : (names rem).Nodup) :
    ∀ n, 0 ≤ dget (propDict cap R rem) n := by
  intro n
  by_cases hmem : n ∈ keys (propDict cap R rem)
  · rw [propDict_keys cap R rem hnd] at hmem
    obtain ⟨it, hit, he⟩ := List.mem_map.1 hmem
    rw [← he, propDict_get cap R rem hnd it hit]
    exact propAdd_nonneg _ _ _
  · rw [dget_eq_zero_of_not_mem _ _ hmem]

theorem propDict_kcal (cap R : ℚ) (rem : List RItem)
    (hnd : (names rem).Nodup) :
    dictKcal rem (propDict cap R rem) =
      (rem.map (fun it => propAdd (min cap R) R it * it.kcalPerG)).sum := by
  rw [dictKcal_by_rem rem (propDict cap R rem) (propDict_keys cap R rem hnd)
    (by rw [propDict_keys cap R rem hnd]; exact hnd)]
  apply congrArg
  apply List.map_congr_left
  intro it hit
  rw [propDict_get cap R rem hnd it hit, firstK_of_mem rem hnd it hit]

theorem propDict_kcal_le (cap R : ℚ) (rem : List RItem)
    (hnd : (names rem).Nodup) (hw : ∀ it ∈ rem, 0 ≤ it.weight)
    (hk0 : ∀ it ∈ rem, 0 ≤ it.kcalPerG) (hR : R = totalKcal rem)
    (hRpos : eps9 < R) (hcap : 0 < cap) :
    dictKcal rem (propDict cap R rem) ≤ min cap R := by
  have hR0 : (0:ℚ) < R := lt_trans eps9_pos hRpos
  have ht : (0:ℚ) ≤ min cap R := le_min (le_of_lt hcap) (le_of_lt hR0)
  rw [propDict_kcal cap R rem hnd]
  have hstep : (rem.map (fun it => propAdd (min cap R) R it * it.kcalPerG)).sum ≤
      (rem.map (fun it =>
        min cap R * ((it.weight * it.kcalPerG) / R))).sum := by
    apply List.sum_le_sum
    intro it hit
    exact propAdd_energy_le_share (min cap R) R it (hk0 it hit) ht hR0
      (hw it hit)
  refine le_trans hstep ?_
  have hrw : (rem.map (fun it =>
      min cap R * ((it.weight * it.kcalPerG) / R))).sum =
      (min cap R / R) * (rem.map (fun it => it.weight * it.kcalPerG)).sum := by
    rw [← sum_map_mul_const rem (min cap R / R)
      (fun it => it.weight * it.kcalPerG)]
    apply congrArg
    apply List.map_congr_left
    intro it _
    ring
  rw [hrw]
  unfold totalKcal at hR
  rw [← hR, div_mul_cancel₀ _ (ne_of_gt hR0)]

/-! ### The final assigned dict of one loop iteration -/

theorem buildDayDict_keys (cap R : ℚ) (rem : List RItem)
    (hnd : (names rem).Nodup) :
    keys (buildDayDict cap R rem) = names rem := by
  rw [buildDayDict_eq]
  by_cases hA : min cap R + eps6 < dictKcal rem (propDict cap R rem)
  · rw [if_pos hA, keys_scale]
    exact propDict_keys cap R rem hnd
  · rw [if_neg hA]
    by_cases hres : eps6 <
        max 0 (min cap R - dictKcal rem (propDict cap R rem))
    · rw [if_pos hres, residPass_eq_foldl]
      rw [residFold_keys rem _ (fun it hit => by
        rw [propDict_keys cap R rem hnd]
        exact List.mem_map_of_mem RItem.name hit)]
      exact propDict_keys cap R rem hnd
    · rw [if_neg hres]
      exact propDict_keys cap R rem hnd

theorem buildDayDict_nonneg (cap R : ℚ) (rem : List RItem)
    (hnd : (names rem).Nodup) (hRpos : eps9 < R) (hcap : 0 < cap) :
    ∀ n, 0 ≤ dget (buildDayDict cap R rem) n := by
  intro n
  have hR0 : (0:ℚ) < R := lt_trans eps9_pos hRpos
  have ht : (0:ℚ) < min cap R := lt_min hcap hR0
  rw [buildDayDict_eq]
  by_cases hA : min cap R + eps6 < dictKcal rem (propDict cap R rem)
  · rw [if_pos hA, dget_scale]
    have hdayK : (0:ℚ) < dictKcal rem (propDict cap R rem) := by
      have := eps6_pos
      linarith
    exact mul_nonneg (propDict_nonneg cap R rem hnd n)
      (div_nonneg (le_of_lt ht) (le_of_lt hdayK))
  · rw [if_neg hA]
    by_cases hres : eps6 <
        max 0 (min cap R - dictKcal rem (propDict cap R rem))
    · rw [if_pos hres, residPass_eq_foldl]
      exact le_trans (propDict_nonneg cap R rem hnd n)
        (residFold_dget_ge rem _ n)
    · rw [if_neg hres]
      exact propDict_nonneg cap R rem hnd n

theorem buildDayDict_kcal_le (cap R : ℚ) (rem : List RItem)
    (hnd : (names rem).Nodup)
    (hRpos : eps9 < R) (hcap : 0 < cap) :
    dictKcal rem (buildDayDict cap R rem) ≤ min cap R + eps6 := by
  have hR0 : (0:ℚ) < R := lt_trans eps9_pos hRpos
  have ht : (0:ℚ) < min cap R := lt_min hcap hR0
  have hkeysnd : (keys (propDict cap R rem)).Nodup := by
    rw [propDict_keys cap R rem hnd]; exact hnd
  rw [buildDayDict_eq]
  by_cases hA : min cap R + eps6 < dictKcal rem (propDict cap R rem)
  · rw [if_pos hA, dictKcal_scale]
    have hdayK : (0:ℚ) < dictKcal rem (propDict cap R rem) := by
      have := eps6_pos
      linarith
    rw [mul_comm, div_mul_cancel₀ _ (ne_of_gt hdayK)]
    linarith [eps6_pos]
  · rw [if_neg hA]
    push_neg at hA
    by_cases hres : eps6 <
        max 0 (min cap R - dictKcal rem (propDict cap R rem))
    · rw [if_pos hres, residPass_eq_foldl]
      have henergy := residFold_energy_le rem rem
        (max 0 (min cap R - dictKcal rem (propDict cap R rem)),
          propDict cap R rem)
        hkeysnd
        (fun it hit => by
          rw [propDict_keys cap R rem hnd]
          exact List.mem_map_of_mem RItem.name hit)
        (fun it hit => firstK_of_mem rem hnd it hit)
      have hresnn : 0 ≤ (rem.foldl residStep
          (max 0 (min cap R - dictKcal rem (propDict cap R rem)),
            propDict cap R rem)).1 :=
        residFold_fst_nonneg rem _ (le_max_left 0 _)
      have hrmax : max 0 (min cap R - dictKcal rem (propDict cap R rem)) =
          min cap R - dictKcal rem (propDict cap R rem) := by
        rcases max_cases 0
          (min cap R - dictKcal rem (propDict cap R rem)) with
          ⟨he, _⟩ | ⟨he, _⟩
        · rw [he] at hres
          exact absurd hres (not_lt.2 (le_of_lt eps6_pos))
        · exact he
      rw [hrmax] at henergy hresnn
      rw [hrmax]
      simp only at henergy hresnn
      linarith [eps6_pos]
    · rw [if_neg hres]
      linarith [eps6_pos]

theorem buildDayDict_exact (cap R : ℚ) (rem : List RItem)
    (hnd : (names rem).Nodup) (hw : ∀ it ∈ rem, 0 ≤ it.weight)
    (hk9 : ∀ it ∈ rem, eps9 ≤ it.kcalPerG) (hR : R = totalKcal rem)
    (hRpos : eps9 < R) (hcap : 0 < cap) :
    (∀ it ∈ rem, dget (buildDayDict cap R rem) it.name ≤ it.weight) ∧
    (∀ it ∈ rem, it.weight ≤ eps9 →
      dget (buildDayDict cap R rem) it.name = 0) ∧
    ((min cap R ≤ dictKcal rem (buildDayDict cap R rem) + eps6) ∨
      (∀ it ∈ rem, eps9 < it.weight →
        dget (buildDayDict cap R rem) it.name = it.weight)) ∧
    (R ≤ cap → ∀ it ∈ rem, eps9 < it.weight →
      dget (buildDayDict cap R rem) it.name = it.weight) := by
  have hR0 : (0:ℚ) < R := lt_trans eps9_pos hRpos
  have ht : (0:ℚ) < min cap R := lt_min hcap hR0
  have hk0 : ∀ it ∈ rem, 0 ≤ it.kcalPerG := fun it h =>
    le_trans (le_of_lt eps9_pos) (hk9 it h)
  have hkeysnd : (keys (propDict cap R rem)).Nodup := by
    rw [propDict_keys cap R rem hnd]; exact hnd
  have hdayK_le : dictKcal rem (propDict cap R rem) ≤ min cap R :=
    propDict_kcal_le cap R rem hnd hw hk0 hR hRpos hcap
  have hA : ¬ (min cap R + eps6 < dictKcal rem (propDict cap R rem)) := by
    have := eps6_pos
    linarith
  have hD1w : ∀ it ∈ rem, dget (propDict cap R rem) it.name ≤ it.weight := by
    intro it hit
    rw [propDict_get cap R rem hnd it hit]
    exact propAdd_le_weight _ _ _ (hw it hit)
  have hD1small : ∀ it ∈ rem, it.weight ≤ eps9 →
      dget (propDict cap R rem) it.name = 0 := by
    intro it hit hsm
    rw [propDict_get cap R rem hnd it hit]
    exact propAdd_small _ _ _ hsm
  have hD1big : R ≤ cap → ∀ it ∈ rem, eps9 < it.weight →
      dget (propDict cap R rem) it.name = it.weight := by
    intro hRc it hit hbig
    have htR : min cap R = R := min_eq_right hRc
    rw [propDict_get cap R rem hnd it hit, htR,
      propAdd_exact R R it (hk9 it hit) hbig (le_refl R) hR0 hR0,
      mul_comm, mul_div_assoc, div_self (ne_of_gt hR0), mul_one]
  rw [buildDayDict_eq, if_neg hA]
  by_cases hres : eps6 <
      max 0 (min cap R - dictKcal rem (propDict cap R rem))
  · have hrmax : max 0 (min cap R - dictKcal rem (propDict cap R rem)) =
        min cap R - dictKcal rem (propDict cap R rem) := by
      rcases max_cases 0
        (min cap R - dictKcal rem (propDict cap R rem)) with
        ⟨he, _⟩ | ⟨he, _⟩
      · rw [he] at hres
        exact absurd hres (not_lt.2 (le_of_lt eps6_pos))
      · exact he
    rw [if_pos hres, residPass_eq_foldl, hrmax]
    have hsub : ∀ it ∈ rem, it.name ∈ keys (propDict cap R rem) := by
      intro it hit
      rw [propDict_keys cap R rem hnd]
      exact List.mem_map_of_mem RItem.name hit
    refine ⟨?_, ?_, ?_, ?_⟩
    · exact residFold_dget_le_weight rem _ hnd hD1w
    · intro it hit hsm
      rw [residFold_small_untouched rem _ hnd it hit hsm]
      exact hD1small it hit hsm
    · have henergy := residFold_energy_eq rem rem
        (min cap R - dictKcal rem (propDict cap R rem),
          propDict cap R rem) hkeysnd hsub
        (fun it hit => firstK_of_mem rem hnd it hit) hk9
      by_cases hresf : (rem.foldl residStep
          (min cap R - dictKcal rem (propDict cap R rem),
            propDict cap R rem)).1 ≤ eps6
      · left
        simp only at henergy
        linarith
      · right
        exact residFold_at_capacity rem _ hnd hD1w (not_le.1 hresf)
    · intro hRc it hit hbig
      refine le_antisymm (residFold_dget_le_weight rem _ hnd hD1w it hit) ?_
      rw [← hD1big hRc it hit hbig]
      exact residFold_dget_ge rem _ it.name
  · rw [if_neg hres]
    push_neg at hres
    refine ⟨hD1w, hD1small, Or.inl ?_, hD1big⟩
    have : min cap R - dictKcal rem (propDict cap R rem) ≤
        max 0 (min cap R - dictKcal rem (propDict cap R rem)) :=
      le_max_right _ _
    linarith

/-! ### Unfolding the day loop -/

theorem planLoop_inactive (cap : ℚ) (fuel : ℕ) (rem : List RItem)
    (h : rem.any (fun it => eps9 < it.weight) = false) :
    planLoop cap fuel rem = some [] := by
  cases fuel with
  | zero =>
    rw [planLoop, h]
    rfl
  | succ fuel' =>
    rw [planLoop, h]
    rfl

theorem planLoop_zero_active (cap : ℚ) (rem : List RItem)
    (h : rem.any (fun it => eps9 < it.weight) = true) :
    planLoop cap 0 rem = none := by
  rw [planLoop, h]
  rfl

theorem planLoop_break (cap : ℚ) (fuel : ℕ) (rem : List RItem)
    (h : rem.any (fun it => eps9 < it.weight) = true)
    (hR : totalKcal rem ≤ eps9) :
    planLoop cap (fuel + 1) rem = some [] := by
  rw [planLoop, h]
  simp only [if_true]
  rw [if_pos hR]

theorem planLoop_step (cap : ℚ) (fuel : ℕ) (rem : List RItem)
    (h : rem.any (fun it => eps9 < it.weight) = true)
    (hR : ¬ totalKcal rem ≤ eps9) :
    planLoop cap (fuel + 1) rem =
      (planLoop cap fuel (buildDay cap (totalKcal rem) rem).2).map
        (fun ds => (buildDay cap (totalKcal rem) rem).1 :: ds) := by
  rw [planLoop, h]
  simp only [if_true]
  rw [if_neg hR]

theorem buildDay_fst (cap R : ℚ) (rem : List RItem) :
    (buildDay cap R rem).1 = (chargeDay (buildDayDict cap R rem) rem).1 := rfl

theorem buildDay_snd (cap R : ℚ) (rem : List RItem) :
    (buildDay cap R rem).2 = rem.map (chargeItem (buildDayDict cap R rem)) :=
  chargeDay_snd (buildDayDict cap R rem) rem

theorem names_chargeItem_map (d : Grams) (rem : List RItem) :
    names (rem.map (chargeItem d)) = names rem := by
  unfold names
  rw [List.map_map]
  rfl

theorem chargeDay_fst_pos (d : Grams) (rem : List RItem) :
    ∀ q ∈ (chargeDay d rem).1, 0 < q.2 := by
  intro q hq
  rw [chargeDay_fst] at hq
  obtain ⟨it, _, hf⟩ := List.mem_filterMap.1 hq
  by_cases hc : 0 < chargedOf d it
  · rw [if_pos hc] at hf
    cases hf
    exact hc
  · rw [if_neg hc] at hf
    cases hf

theorem totalKcal_charge_le (rem : List RItem) (d : Grams)
    (hnd : (names rem).Nodup) (hw : ∀ it ∈ rem, 0 ≤ it.weight)
    (hk0 : ∀ it ∈ rem, 0 ≤ it.kcalPerG)
    (hv0 : ∀ n, 0 ≤ dget d n)
    (hvw : ∀ it ∈ rem, dget d it.name ≤ it.weight)
    (hkeys : keys d = names rem) :
    totalKcal (rem.map (chargeItem d)) ≤ totalKcal rem - dictKcal rem d := by
  have hknd : (keys d).Nodup := by rw [hkeys]; exact hnd
  have h1 : totalKcal (rem.map (chargeItem d)) ≤
      (rem.map (fun it => (it.weight - chargedOf d it) * it.kcalPerG)).sum := by
    unfold totalKcal
    rw [List.map_map]
    apply List.sum_le_sum
    intro it hit
    have h2 := newWeight_le_sub d it
    exact mul_le_mul_of_nonneg_right h2 (hk0 it hit)
  refine le_trans h1 ?_
  have h3 : (rem.map (fun it =>
      (it.weight - chargedOf d it) * it.kcalPerG)).sum =
      totalKcal rem - (rem.map (fun it => chargedOf d it * it.kcalPerG)).sum := by
    unfold totalKcal
    rw [← sum_map_sub]
    apply congrArg
    apply List.map_congr_left
    intro it _
    ring
  rw [h3]
  have h4 : (rem.map (fun it => chargedOf d it * it.kcalPerG)).sum =
      dictKcal rem d := by
    rw [dictKcal_by_rem rem d hkeys hknd]
    apply congrArg
    apply List.map_congr_left
    intro it hit
    rw [charged_eq_dget d it (hv0 it.name) (hvw it hit),
      firstK_of_mem rem hnd it hit]
  rw [h4]

/-! ### Loop-level invariants -/

theorem planLoop_cap_bound (cpg : String → ℚ) (cap : ℚ) :
    ∀ (fuel : ℕ) (rem : List RItem) (ds : List (List (String × ℚ))),
      planLoop cap fuel rem = some ds →
      (names rem).Nodup →
      (∀ it ∈ rem, 0 ≤ it.weight) →
      (∀ it ∈ rem, it.kcalPerG = cpg it.name) →
      (∀ it ∈ rem, 0 ≤ it.kcalPerG) →
      0 < cap →
      ∀ day ∈ ds, dayEnergy cpg day ≤ cap + eps6 := by
  intro fuel
  induction fuel with
  | zero =>
    intro rem ds hp hnd hw hkeq hk0 hcap day hday
    cases hb : rem.any (fun it => eps9 < it.weight) with
    | true =>
      rw [planLoop_zero_active cap rem hb] at hp
      cases hp
    | false =>
      rw [planLoop_inactive cap 0 rem hb] at hp
      cases hp
      simp at hday
  | succ fuel ih =>
    intro rem ds hp hnd hw hkeq hk0 hcap day hday
    cases hb : rem.any (fun it => eps9 < it.weight) with
    | false =>
      rw [planLoop_inactive cap (fuel + 1) rem hb] at hp
      cases hp
      simp at hday
    | true =>
      by_cases hR : totalKcal rem ≤ eps9
      · rw [planLoop_break cap fuel rem hb hR] at hp
        cases hp
        simp at hday
      · rw [planLoop_step cap fuel rem hb hR] at hp
        obtain ⟨ds', hds', hcons⟩ := Option.map_eq_some'.1 hp
        have hRpos : eps9 < totalKcal rem := not_le.1 hR
        have hknd : (keys (buildDayDict cap (totalKcal rem) rem)).Nodup := by
          rw [buildDayDict_keys cap (totalKcal rem) rem hnd]
          exact hnd
        rw [← hcons] at hday
        rcases List.mem_cons.1 hday with he | hm
        · subst he
          rw [buildDay_fst, dayEnergy_chargeDay]
          have hstep : (rem.map (fun it =>
              chargedOf (buildDayDict cap (totalKcal rem) rem) it *
                cpg it.name)).sum ≤
              dictKcal rem (buildDayDict cap (totalKcal rem) rem) := by
            rw [dictKcal_by_rem rem _
              (buildDayDict_keys cap (totalKcal rem) rem hnd) hknd]
            apply List.sum_le_sum
            intro it hit
            rw [firstK_of_mem rem hnd it hit, ← hkeq it hit]
            apply mul_le_mul_of_nonneg_right
            · exact charged_le_dget _ it
                (buildDayDict_nonneg cap (totalKcal rem) rem hnd hRpos hcap
                  it.name)
            · exact hk0 it hit
          refine le_trans hstep (le_trans
            (buildDayDict_kcal_le cap (totalKcal rem) rem hnd hRpos hcap) ?_)
          have : min cap (totalKcal rem) ≤ cap := min_le_left _ _
          linarith
        · refine ih (buildDay cap (totalKcal rem) rem).2 ds' hds' ?_ ?_ ?_ ?_
            hcap day hm
          · rw [buildDay_snd, names_chargeItem_map]
            exact hnd
          · intro it' hit'
            rw [buildDay_snd] at hit'
            obtain ⟨it, hit, he⟩ := List.mem_map.1 hit'
            rw [← he]
            exact newWeight_nonneg _ it (hw it hit)
          · intro it' hit'
            rw [buildDay_snd] at hit'
            obtain ⟨it, hit, he⟩ := List.mem_map.1 hit'
            rw [← he]
            exact hkeq it hit
          · intro it' hit'
            rw [buildDay_snd] at hit'
            obtain ⟨it, hit, he⟩ := List.mem_map.1 hit'
            rw [← he]
            exact hk0 it hit

theorem any_eq_false_weights (rem : List RItem)
    (hb : rem.any (fun it => eps9 < it.weight) = false) :
    ∀ it ∈ rem, it.weight ≤ eps9 := by
  intro it hit
  have := List.any_eq_false.1 hb it hit
  simpa using this

theorem planLoop_buckets_pos (cap : ℚ) :
    ∀ (fuel : ℕ) (rem : List RItem) (ds : List (List (String × ℚ))),
      planLoop cap fuel rem = some ds →
      ∀ day ∈ ds, ∀ q ∈ day, 0 < q.2 := by
  intro fuel
  induction fuel with
  | zero =>
    intro rem ds hp day hday
    cases hb : rem.any (fun it => eps9 < it.weight) with
    | true => rw [planLoop_zero_active cap rem hb] at hp; cases hp
    | false =>
      rw [planLoop_inactive cap 0 rem hb] at hp
      cases hp
      simp at hday
  | succ fuel ih =>
    intro rem ds hp day hday
    cases hb : rem.any (fun it => eps9 < it.weight) with
    | false =>
      rw [planLoop_inactive cap (fuel + 1) rem hb] at hp
      cases hp
      simp at hday
    | true =>
      by_cases hR : totalKcal rem ≤ eps9
      · rw [planLoop_break cap fuel rem hb hR] at hp
        cases hp
        simp at hday
      · rw [planLoop_step cap fuel rem hb hR] at hp
        obtain ⟨ds', hds', hcons⟩ := Option.map_eq_some'.1 hp
        rw [← hcons] at hday
        rcases List.mem_cons.1 hday with he | hm
        · subst he
          rw [buildDay_fst]
          exact chargeDay_fst_pos _ rem
        · exact ih (buildDay cap (totalKcal rem) rem).2 ds' hds' day hm

theorem planLoop_conserve (cap : ℚ) :
    ∀ (fuel : ℕ) (rem : List RItem) (ds : List (List (String × ℚ))),
      planLoop cap fuel rem = some ds →
      (names rem).Nodup →
      (∀ it ∈ rem, 0 ≤ it.weight) →
      (∀ it ∈ rem, (1:ℚ)/1000 ≤ it.kcalPerG) →
      ∀ it ∈ rem, 0 ≤ assignedTotal it.name ds ∧
        assignedTotal it.name ds ≤ it.weight ∧
        it.weight - assignedTotal it.name ds ≤ eps6 := by
  intro fuel
  induction fuel with
  | zero =>
    intro rem ds hp hnd hw hk it hit
    cases hb : rem.any (fun it => eps9 < it.weight) with
    | true => rw [planLoop_zero_active cap rem hb] at hp; cases hp
    | false =>
      rw [planLoop_inactive cap 0 rem hb] at hp
      cases hp
      have hsmall := any_eq_false_weights rem hb it hit
      refine ⟨le_refl 0, ?_, ?_⟩
      · rw [assignedTotal_nil]
        exact hw it hit
      · rw [assignedTotal_nil]
        have := eps9_le_eps6
        linarith
  | succ fuel ih =>
    intro rem ds hp hnd hw hk it hit
    cases hb : rem.any (fun it => eps9 < it.weight) with
    | false =>
      rw [planLoop_inactive cap (fuel + 1) rem hb] at hp
      cases hp
      have hsmall := any_eq_false_weights rem hb it hit
      refine ⟨le_refl 0, ?_, ?_⟩
      · rw [assignedTotal_nil]
        exact hw it hit
      · rw [assignedTotal_nil]
        have := eps9_le_eps6
        linarith
    | true =>
      by_cases hR : totalKcal rem ≤ eps9
      · rw [planLoop_break cap fuel rem hb hR] at hp
        cases hp
        have hterm : it.weight * it.kcalPerG ≤ totalKcal rem := by
          unfold totalKcal
          refine List.single_le_sum ?_ _
            (List.mem_map_of_mem (fun x => x.weight * x.kcalPerG) hit)
          intro x hx
          obtain ⟨y, hy, he⟩ := List.mem_map.1 hx
          rw [← he]
          exact mul_nonneg (hw y hy)
            (le_trans (by norm_num) (hk y hy))
        have hky := hk it hit
        have hwy := hw it hit
        refine ⟨le_refl 0, ?_, ?_⟩
        · rw [assignedTotal_nil]
          exact hwy
        · rw [assignedTotal_nil]
          have hwk : it.weight * it.kcalPerG ≤ eps9 := le_trans hterm hR
          rw [eps6]
          rw [eps9] at hwk
          nlinarith
      · rw [planLoop_step cap fuel rem hb hR] at hp
        obtain ⟨ds', hds', hcons⟩ := Option.map_eq_some'.1 hp
        subst hcons
        set d2 := buildDayDict cap (totalKcal rem) rem with hd2
        have hit' : chargeItem d2 it ∈ (buildDay cap (totalKcal rem) rem).2 := by
          rw [buildDay_snd]
          exact List.mem_map_of_mem (chargeItem d2) hit
        have ihb := ih (buildDay cap (totalKcal rem) rem).2 ds' hds'
          (by rw [buildDay_snd, names_chargeItem_map]; exact hnd)
          (by
            intro x hx
            rw [buildDay_snd] at hx
            obtain ⟨y, hy, he⟩ := List.mem_map.1 hx
            rw [← he]
            exact newWeight_nonneg _ y (hw y hy))
          (by
            intro x hx
            rw [buildDay_snd] at hx
            obtain ⟨y, hy, he⟩ := List.mem_map.1 hx
            rw [← he]
            exact hk y hy)
          (chargeItem d2 it) hit'
        have hAday : dayAmount it.name (buildDay cap (totalKcal rem) rem).1 =
            chargedOf d2 it := by
          rw [buildDay_fst]
          exact dayAmount_chargeDay d2 rem hnd it hit
        rw [assignedTotal_cons]
        have hname : (chargeItem d2 it).name = it.name := rfl
        rw [hname] at ihb
        have hweq : (chargeItem d2 it).weight = newWeight d2 it := rfl
        rw [hweq] at ihb
        obtain ⟨ih1, ih2, ih3⟩ := ihb
        have hc0 := charged_nonneg d2 it
        have hcw := charged_le_weight d2 it (hw it hit)
        rcases newWeight_cases d2 it with hcase | hcase
        · rw [hcase] at ih2 ih3
          refine ⟨?_, ?_, ?_⟩
          · rw [hAday]
            linarith
          · rw [hAday]
            linarith
          · rw [hAday]
            linarith
        · obtain ⟨hz, hclose⟩ := hcase
          rw [hz] at ih2 ih3
          have hA0 : assignedTotal it.name ds' = 0 := le_antisymm ih2 ih1
          rw [hAday, hA0]
          have := eps9_le_eps6
          refine ⟨by linarith, by linarith, by linarith⟩

theorem charged_small_map (rem : List RItem) (d2 : Grams)
    (hw : ∀ it ∈ rem, 0 ≤ it.weight)
    (hbig : ∀ it ∈ rem, eps9 < it.weight → dget d2 it.name = it.weight)
    (hsm : ∀ it ∈ rem, it.weight ≤ eps9 → dget d2 it.name = 0) :
    (rem.map (chargeItem d2)).any (fun it => eps9 < it.weight) = false := by
  rw [List.any_eq_false]
  intro x hx
  obtain ⟨it, hit, he⟩ := List.mem_map.1 hx
  subst he
  simp only [decide_eq_true_eq, not_lt]
  show newWeight d2 it ≤ eps9
  by_cases hsmall : it.weight ≤ eps9
  · have hz : chargedOf d2 it = 0 :=
      charged_eq_zero_of_dget_zero d2 it (hsm it hit hsmall)
    unfold newWeight
    rw [hz, if_neg (lt_irrefl 0)]
    exact hsmall
  · have hbw : eps9 < it.weight := not_le.1 hsmall
    have hcw : chargedOf d2 it = it.weight := by
      unfold chargedOf
      rw [hbig it hit hbw, min_self, max_eq_right (hw it hit)]
    unfold newWeight
    rw [hcw, if_pos (lt_trans eps9_pos hbw)]
    rw [if_pos (by linarith [eps9_pos])]
    exact le_of_lt eps9_pos

theorem planLoop_terminates (cap : ℚ) (hcap6 : eps6 < cap) :
    ∀ (N : ℕ) (rem : List RItem),
      (names rem).Nodup → (∀ it ∈ rem, 0 ≤ it.weight) →
      (∀ it ∈ rem, eps9 ≤ it.kcalPerG) →
      totalKcal rem ≤ (N : ℚ) * (cap - eps6) + eps9 →
      (planLoop cap (N + 1) rem).isSome = true := by
  intro N
  induction N with
  | zero =>
    intro rem hnd hw hk9 hE
    cases hb : rem.any (fun it => eps9 < it.weight) with
    | false => rw [planLoop_inactive cap 1 rem hb]; rfl
    | true =>
      have hR : totalKcal rem ≤ eps9 := by
        rw [Nat.cast_zero, zero_mul, zero_add] at hE
        exact hE
      rw [planLoop_break cap 0 rem hb hR]
      rfl
  | succ N ih =>
    intro rem hnd hw hk9 hE
    cases hb : rem.any (fun it => eps9 < it.weight) with
    | false => rw [planLoop_inactive cap (N + 1 + 1) rem hb]; rfl
    | true =>
      by_cases hR : totalKcal rem ≤ eps9
      · rw [planLoop_break cap (N + 1) rem hb hR]
        rfl
      · rw [planLoop_step cap (N + 1) rem hb hR]
        rw [Option.isSome_map']
        have hRpos : eps9 < totalKcal rem := not_le.1 hR
        have hcap : (0:ℚ) < cap := lt_trans eps6_pos hcap6
        obtain ⟨hex1, hex2, hex3, hex4⟩ := buildDayDict_exact cap
          (totalKcal rem) rem hnd hw hk9 rfl hRpos hcap
        set d2 := buildDayDict cap (totalKcal rem) rem with hd2
        have hnd' : (names (buildDay cap (totalKcal rem) rem).2).Nodup := by
          rw [buildDay_snd, names_chargeItem_map]
          exact hnd
        have hw' : ∀ it ∈ (buildDay cap (totalKcal rem) rem).2,
            0 ≤ it.weight := by
          intro x hx
          rw [buildDay_snd] at hx
          obtain ⟨y, hy, he⟩ := List.mem_map.1 hx
          rw [← he]
          exact newWeight_nonneg _ y (hw y hy)
        have hk9' : ∀ it ∈ (buildDay cap (totalKcal rem) rem).2,
            eps9 ≤ it.kcalPerG := by
          intro x hx
          rw [buildDay_snd] at hx
          obtain ⟨y, hy, he⟩ := List.mem_map.1 hx
          rw [← he]
          exact hk9 y hy
        by_cases hRc : totalKcal rem ≤ cap
        · have hallbig := hex4 hRc
          have hanyf : ((buildDay cap (totalKcal rem) rem).2.any
              (fun it => eps9 < it.weight)) = false := by
            rw [buildDay_snd]
            exact charged_small_map rem d2 hw hallbig hex2
          rw [planLoop_inactive cap (N + 1) _ hanyf]
          rfl
        · push_neg at hRc
          rcases hex3 with hleft | hright
          · have htot : totalKcal (buildDay cap (totalKcal rem) rem).2 ≤
                totalKcal rem - dictKcal rem d2 := by
              rw [buildDay_snd]
              exact totalKcal_charge_le rem d2 hnd hw
                (fun it hit => le_trans (le_of_lt eps9_pos) (hk9 it hit))
                (buildDayDict_nonneg cap (totalKcal rem) rem hnd hRpos hcap)
                hex1
                (buildDayDict_keys cap (totalKcal rem) rem hnd)
            have hmin : min cap (totalKcal rem) = cap :=
              min_eq_left (le_of_lt hRc)
            rw [hmin] at hleft
            apply ih (buildDay cap (totalKcal rem) rem).2 hnd' hw' hk9'
            push_cast at hE ⊢
            linarith
          · have hanyf : ((buildDay cap (totalKcal rem) rem).2.any
                (fun it => eps9 < it.weight)) = false := by
              rw [buildDay_snd]
              exact charged_small_map rem d2 hw hright hex2
            rw [planLoop_inactive cap (N + 1) _ hanyf]
            rfl

/-! ### The density resolver -/

theorem PRODUCTS_DB_keys_nodup : (PRODUCTS_DB.map Prod.fst).Nodup := by
  decide

theorem PRODUCTS_DB_calories_ge :
    ∀ p ∈ PRODUCTS_DB, (41:ℚ) ≤ p.2.calories := by
  decide

theorem findp_cons {α : Type} (p0 : String × α) (rest : List (String × α))
    (n : String) :
    List.find? (fun q => q.1 == n) (p0 :: rest) =
      if (p0.1 == n) = true then some p0
      else List.find? (fun q => q.1 == n) rest := by
  simp only [List.find?_cons]
  cases h : (p0.1 == n) with
  | true => simp
  | false => simp

theorem find_key_self {α : Type} (l : List (String × α))
    (hnd : (l.map Prod.fst).Nodup) (p : String × α) (hp : p ∈ l) :
    l.find? (fun q => q.1 == p.1) = some p := by
  induction l with
  | nil => simp at hp
  | cons q rest ih =>
    simp only [List.map_cons, List.nodup_cons] at hnd
    rw [findp_cons]
    rcases List.mem_cons.1 hp with he | hm
    · subst he
      rw [if_pos (beqT rfl)]
    · have hne : q.1 ≠ p.1 := by
        intro e
        exact hnd.1 (e ▸ List.mem_map_of_mem Prod.fst hm)
      rw [if_neg (beqNT hne)]
      exact ih hnd.2 hm

/-- The density-resolution contract in the words of the specification:
(1) the exact case-folded catalog match, else (2) the first catalog key, in
catalog order, containing the query or contained in it, else (3) a fixed
default of 100 kcal per 100 g.  Written as direct searches over the catalog,
independently of `find_similar_product`, for comparison. -/
def resolveDensitySpec (query : String) : ℚ :=
  let q := pyLower query
  match PRODUCTS_DB.find? (fun p => p.1 == q) with
  | some p => p.2.calories
  | none =>
    match PRODUCTS_DB.find? (fun p => pyIn q p.1 || pyIn p.1 q) with
    | some p => p.2.calories
    | none => 100

theorem calories_per_gram_eq_spec (name : String) :
    calories_per_gram name = resolveDensitySpec name / 100 := by
  by_cases hex : (PRODUCTS_DB.any fun p => p.1 == (pyLower name)) = true
  · have hfs : find_similar_product name = some (pyLower name) := by
      unfold find_similar_product
      rw [if_pos hex]
    obtain ⟨p, hp, hpq⟩ := List.any_eq_true.1 hex
    have hsome : (PRODUCTS_DB.find? fun p => p.1 == (pyLower name)).isSome :=
      List.find?_isSome.2 ⟨p, hp, hpq⟩
    cases hf : PRODUCTS_DB.find? fun p => p.1 == (pyLower name) with
    | none => rw [hf] at hsome; cases hsome
    | some p0 =>
      have h1 : calories_per_gram name = p0.2.calories / 100 := by
        unfold calories_per_gram
        rw [hfs]
        dsimp only
        unfold dbLookup
        rw [hf]
        rfl
      have h2 : resolveDensitySpec name = p0.2.calories := by
        unfold resolveDensitySpec
        dsimp only
        rw [hf]
      rw [h1, h2]
  · have hnone : (PRODUCTS_DB.find? fun p => p.1 == (pyLower name)) = none := by
      rw [List.find?_eq_none]
      intro p hp hc
      exact hex (List.any_eq_true.2 ⟨p, hp, hc⟩)
    have h2 : resolveDensitySpec name =
        (match PRODUCTS_DB.find?
          (fun p => pyIn (pyLower name) p.1 || pyIn p.1 (pyLower name)) with
        | some p => p.2.calories
        | none => 100) := by
      unfold resolveDensitySpec
      dsimp only
      rw [hnone]
    cases hsub : PRODUCTS_DB.find?
        (fun p => pyIn (pyLower name) p.1 || pyIn p.1 (pyLower name)) with
    | none =>
      have hfs : find_similar_product name = none := by
        unfold find_similar_product
        rw [if_neg hex, hsub]
        rfl
      have h1 : calories_per_gram name = 100 / 100 := by
        unfold calories_per_gram
        rw [hfs]
      rw [h1, h2, hsub]
    | some pr =>
      have hfs : find_similar_product name = some pr.1 := by
        unfold find_similar_product
        rw [if_neg hex, hsub]
        rfl
      have hmem : pr ∈ PRODUCTS_DB := List.mem_of_find?_eq_some hsub
      have h1 : calories_per_gram name = pr.2.calories / 100 := by
        unfold calories_per_gram
        rw [hfs]
        dsimp only
        unfold dbLookup
        rw [find_key_self PRODUCTS_DB PRODUCTS_DB_keys_nodup pr hmem]
        rfl
      rw [h1, h2, hsub]

theorem find_similar_lookup (n db : String)
    (h : find_similar_product n = some db) :
    ∃ p ∈ PRODUCTS_DB, PRODUCTS_DB.find? (fun q => q.1 == db) = some p := by
  unfold find_similar_product at h
  by_cases hex : (PRODUCTS_DB.any fun p => p.1 == (pyLower n)) = true
  · rw [if_pos hex] at h
    obtain ⟨p, hp, hpq⟩ := List.any_eq_true.1 hex
    have hsome : (PRODUCTS_DB.find? fun p => p.1 == (pyLower n)).isSome :=
      List.find?_isSome.2 ⟨p, hp, hpq⟩
    cases hf : PRODUCTS_DB.find? fun p => p.1 == (pyLower n) with
    | none => rw [hf] at hsome; cases hsome
    | some p0 =>
      have hdb : db = (pyLower n) := by
        cases h
        rfl
      rw [hdb]
      exact ⟨p0, List.mem_of_find?_eq_some hf, hf⟩
  · rw [if_neg hex] at h
    cases hsub : PRODUCTS_DB.find?
        (fun p => pyIn (pyLower n) p.1 || pyIn p.1 (pyLower n)) with
    | none => rw [hsub] at h; cases h
    | some pr =>
      rw [hsub] at h
      simp only [Option.map_some', Option.some.injEq] at h
      have hmem : pr ∈ PRODUCTS_DB := List.mem_of_find?_eq_some hsub
      refine ⟨pr, hmem, ?_⟩
      rw [← h]
      exact find_key_self PRODUCTS_DB PRODUCTS_DB_keys_nodup pr hmem

theorem calories_per_gram_ge (n : String) :
    (41:ℚ)/100 ≤ calories_per_gram n := by
  cases hf : find_similar_product n with
  | none =>
    have h1 : calories_per_gram n = 100 / 100 := by
      unfold calories_per_gram
      rw [hf]
    rw [h1]
    norm_num
  | some db =>
    obtain ⟨p, hp, hfind⟩ := find_similar_lookup n db hf
    have h1 : calories_per_gram n = p.2.calories / 100 := by
      unfold calories_per_gram
      rw [hf]
      dsimp only
      unfold dbLookup
      rw [hfind]
      rfl
    rw [h1]
    have := PRODUCTS_DB_calories_ge p hp
    linarith

/-! ### Facts about the initial remaining list -/

theorem initRemaining_names (cpg : String → ℚ) (pool : List (String × ℚ)) :
    names (initRemaining cpg pool) =
      (pool.filter (fun p => 0 < p.2)).map Prod.fst := by
  unfold initRemaining names
  rw [List.map_map]
  rfl

theorem initRemaining_nodup (cpg : String → ℚ) (pool : List (String × ℚ))
    (hnd : (pool.map Prod.fst).Nodup) :
    (names (initRemaining cpg pool)).Nodup := by
  rw [initRemaining_names]
  exact List.Nodup.sublist
    (List.Sublist.map Prod.fst (List.filter_sublist pool)) hnd

theorem initRemaining_mem (cpg : String → ℚ) (pool : List (String × ℚ)) :
    ∀ it ∈ initRemaining cpg pool,
      0 < it.weight ∧ it.kcalPerG = cpg it.name := by
  intro it hit
  unfold initRemaining at hit
  obtain ⟨p, hp, he⟩ := List.mem_map.1 hit
  have hpos := List.of_mem_filter hp
  simp only [decide_eq_true_eq] at hpos
  rw [← he]
  exact ⟨hpos, rfl⟩

theorem initRemaining_mem_of (cpg : String → ℚ) (pool : List (String × ℚ)) :
    ∀ p ∈ pool, 0 < p.2 →
      (⟨p.1, p.2, cpg p.1⟩ : RItem) ∈ initRemaining cpg pool := by
  intro p hp hpos
  unfold initRemaining
  refine List.mem_map_of_mem _ ?_
  exact List.mem_filter.2 ⟨hp, by simpa using hpos⟩

theorem planLoop_assigned_le (cap : ℚ) :
    ∀ (fuel : ℕ) (rem : List RItem) (ds : List (List (String × ℚ))),
      planLoop cap fuel rem = some ds →
      (names rem).Nodup →
      (∀ it ∈ rem, 0 ≤ it.weight) →
      ∀ it ∈ rem, 0 ≤ assignedTotal it.name ds ∧
        assignedTotal it.name ds ≤ it.weight := by
  intro fuel
  induction fuel with
  | zero =>
    intro rem ds hp hnd hw it hit
    cases hb : rem.any (fun it => eps9 < it.weight) with
    | true => rw [planLoop_zero_active cap rem hb] at hp; cases hp
    | false =>
      rw [planLoop_inactive cap 0 rem hb] at hp
      cases hp
      exact ⟨le_refl 0, by rw [assignedTotal_nil]; exact hw it hit⟩
  | succ fuel ih =>
    intro rem ds hp hnd hw it hit
    cases hb : rem.any (fun it => eps9 < it.weight) with
    | false =>
      rw [planLoop_inactive cap (fuel + 1) rem hb] at hp
      cases hp
      exact ⟨le_refl 0, by rw [assignedTotal_nil]; exact hw it hit⟩
    | true =>
      by_cases hR : totalKcal rem ≤ eps9
      · rw [planLoop_break cap fuel rem hb hR] at hp
        cases hp
        exact ⟨le_refl 0, by rw [assignedTotal_nil]; exact hw it hit⟩
      · rw [planLoop_step cap fuel rem hb hR] at hp
        obtain ⟨ds', hds', hcons⟩ := Option.map_eq_some'.1 hp
        subst hcons
        set d2 := buildDayDict cap (totalKcal rem) rem with hd2
        have hit' : chargeItem d2 it ∈ (buildDay cap (totalKcal rem) rem).2 := by
          rw [buildDay_snd]
          exact List.mem_map_of_mem (chargeItem d2) hit
        have ihb := ih (buildDay cap (totalKcal rem) rem).2 ds' hds'
          (by rw [buildDay_snd, names_chargeItem_map]; exact hnd)
          (by
            intro x hx
            rw [buildDay_snd] at hx
            obtain ⟨y, hy, he⟩ := List.mem_map.1 hx
            rw [← he]
            exact newWeight_nonneg _ y (hw y hy))
          (chargeItem d2 it) hit'
        have hAday : dayAmount it.name (buildDay cap (totalKcal rem) rem).1 =
            chargedOf d2 it := by
          rw [buildDay_fst]
          exact dayAmount_chargeDay d2 rem hnd it hit
        rw [assignedTotal_cons, hAday]
        have hname : (chargeItem d2 it).name = it.name := rfl
        have hweq : (chargeItem d2 it).weight = newWeight d2 it := rfl
        rw [hname, hweq] at ihb
        obtain ⟨ih1, ih2⟩ := ihb
        have hc0 := charged_nonneg d2 it
        have hcw := charged_le_weight d2 it (hw it hit)
        have hnw := newWeight_le_sub d2 it
        exact ⟨by linarith, by linarith⟩

/-! ### Claim theorems -/

/-- C1 (cap invariant): for every pool of distinct-named items, every
kcal-per-gram resolver `cpg ≥ 0` (i.e. every density resolver, with
`cpg = density / 100`), every `daily_calories > 0` and
`calorie_excess_cap ≥ 0`, every day bucket emitted by the day-building loop
of `create_multi_day_plan` has total energy
`Σ grams_i * density_i / 100 = dayEnergy cpg day` at most
`dailyCap + excessCap + 1e-6`, whichever of the rescaling branch or the
residual top-up branch produced it. -/
theorem claim_C1_cap_invariant (cpg : String → ℚ) (pool : List (String × ℚ))
    (daily excess : ℤ) (fuel : ℕ) (days : List (List (String × ℚ)))
    (hnd : (pool.map Prod.fst).Nodup) (hcpg : ∀ n, 0 ≤ cpg n)
    (hd : 0 < daily) (he : 0 ≤ excess)
    (hplan : multiDayBucketsWith cpg pool daily excess fuel = some days) :
    ∀ day ∈ days, dayEnergy cpg day ≤ ((daily : ℚ) + (excess : ℚ)) + eps6 := by
  intro day hday
  unfold multiDayBucketsWith at hplan
  have hcapz : (0:ℤ) < daily + excess := by linarith
  have hcap : (0:ℚ) < ((daily + excess : ℤ) : ℚ) := by exact_mod_cast hcapz
  have hbound := planLoop_cap_bound cpg ((daily + excess : ℤ) : ℚ) fuel
    (initRemaining cpg pool) days hplan
    (initRemaining_nodup cpg pool hnd)
    (fun it hit => le_of_lt (initRemaining_mem cpg pool it hit).1)
    (fun it hit => (initRemaining_mem cpg pool it hit).2)
    (fun it hit => by
      rw [(initRemaining_mem cpg pool it hit).2]
      exact hcpg it.name)
    hcap day hday
  have hcast : ((daily + excess : ℤ) : ℚ) = (daily : ℚ) + (excess : ℚ) := by
    push_cast
    ring
  rw [hcast] at hbound
  exact hbound

/-- C10 (remaining-mass state invariant): the grams finally charged to a day
for an item are `chargedOf`, clamped to `[0, weight]`; the updated remaining
weight `newWeight` stays in `[0, weight]` (non-negative and non-increasing);
and across all iterations of the day loop the cumulative grams assigned to
a distinct-named item never exceed its original remaining mass. -/
theorem claim_C10_remaining_invariant :
    (∀ (d : Grams) (it : RItem), 0 ≤ it.weight →
      0 ≤ chargedOf d it ∧ chargedOf d it ≤ it.weight ∧
      0 ≤ (chargeItem d it).weight ∧ (chargeItem d it).weight ≤ it.weight) ∧
    (∀ (cap : ℚ) (fuel : ℕ) (rem : List RItem)
      (ds : List (List (String × ℚ))),
      planLoop cap fuel rem = some ds →
      (names rem).Nodup →
      (∀ it ∈ rem, 0 ≤ it.weight) →
      ∀ it ∈ rem, 0 ≤ assignedTotal it.name ds ∧
        assignedTotal it.name ds ≤ it.weight) := by
  constructor
  · intro d it hw
    exact ⟨charged_nonneg d it, charged_le_weight d it hw,
      newWeight_nonneg d it hw, newWeight_le_weight d it⟩
  · intro cap fuel rem ds hp hnd hw
    exact planLoop_assigned_le cap fuel rem ds hp hnd hw


/-- C2 (conservation): with the source's own resolver, for every pool of
distinct-named items with positive masses and positive daily budget, the day
loop terminates (given the fuel bound) and, for each pool item, the grams
assigned to it across all emitted day buckets reproduce its original mass to
within `1e-6` g. -/
theorem claim_C2_conservation (pool : List (String × ℚ)) (daily excess : ℤ)
    (N : ℕ)
    (hnd : (pool.map Prod.fst).Nodup) (hpos : ∀ p ∈ pool, 0 < p.2)
    (hd : 0 < daily) (he : 0 ≤ excess)
    (hfuel : totalKcal (initRemaining calories_per_gram pool) ≤
      (N : ℚ) * (((daily : ℚ) + (excess : ℚ)) - eps6) + eps9) :
    (multiDayBucketsWith calories_per_gram pool daily excess (N + 1)).isSome
      = true ∧
    ∀ days, multiDayBucketsWith calories_per_gram pool daily excess (N + 1)
        = some days →
      ∀ p ∈ pool, |assignedTotal p.1 days - p.2| ≤ eps6 := by
  have hcast : ((daily + excess : ℤ) : ℚ) = (daily : ℚ) + (excess : ℚ) := by
    push_cast
    ring
  have hcapz : (1:ℤ) ≤ daily + excess := by linarith
  have hcap1 : (1:ℚ) ≤ ((daily + excess : ℤ) : ℚ) := by exact_mod_cast hcapz
  have hcap6 : eps6 < ((daily + excess : ℤ) : ℚ) :=
    lt_of_lt_of_le (by norm_num [eps6]) hcap1
  have hnd' := initRemaining_nodup calories_per_gram pool hnd
  have hw' : ∀ it ∈ initRemaining calories_per_gram pool, 0 ≤ it.weight :=
    fun it hit => le_of_lt (initRemaining_mem _ pool it hit).1
  have hk9' : ∀ it ∈ initRemaining calories_per_gram pool,
      eps9 ≤ it.kcalPerG := by
    intro it hit
    rw [(initRemaining_mem _ pool it hit).2]
    refine le_trans (by norm_num [eps9]) (calories_per_gram_ge it.name)
  have hfuel' : totalKcal (initRemaining calories_per_gram pool) ≤
      (N : ℚ) * (((daily + excess : ℤ) : ℚ) - eps6) + eps9 := by
    rw [hcast]
    exact hfuel
  constructor
  · exact planLoop_terminates ((daily + excess : ℤ) : ℚ) hcap6 N
      (initRemaining calories_per_gram pool) hnd' hw' hk9' hfuel'
  · intro days hdays p hp
    have hit := initRemaining_mem_of calories_per_gram pool p hp (hpos p hp)
    have hk1000 : ∀ it ∈ initRemaining calories_per_gram pool,
        (1:ℚ)/1000 ≤ it.kcalPerG := by
      intro it hit'
      rw [(initRemaining_mem _ pool it hit').2]
      refine le_trans (by norm_num) (calories_per_gram_ge it.name)
    have hcons := planLoop_conserve ((daily + excess : ℤ) : ℚ) (N + 1)
      (initRemaining calories_per_gram pool) days hdays hnd' hw' hk1000
      ⟨p.1, p.2, calories_per_gram p.1⟩ hit
    obtain ⟨h1, h2, h3⟩ := hcons
    rw [abs_le]
    constructor
    · simp only at h2 h3 ⊢
      linarith
    · simp only at h2 h3 ⊢
      linarith

/-- C3 (amended, termination bound): for distinct-named pools and per-gram
densities at least `1e-9`, the day loop terminates, and at most
`⌈totalEnergy / (capPerDay - 1e-6)⌉ + 1` iterations occur, stated via fuel:
`N + 1` fuel suffice whenever `totalEnergy ≤ N * (capPerDay - 1e-6) + 1e-9`
(each non-final round removes at least `capPerDay - 1e-6` of the remaining
energy, not the claimed full `min(capPerDay, R)`). -/
theorem claim_C3_amended_termination (cpg : String → ℚ)
    (pool : List (String × ℚ)) (daily excess : ℤ) (N : ℕ)
    (hnd : (pool.map Prod.fst).Nodup) (hk9 : ∀ n, eps9 ≤ cpg n)
    (hcap : 0 < daily + excess)
    (hE : totalKcal (initRemaining cpg pool) ≤
      (N : ℚ) * (((daily : ℚ) + (excess : ℚ)) - eps6) + eps9) :
    (multiDayBucketsWith cpg pool daily excess (N + 1)).isSome = true := by
  have hcast : ((daily + excess : ℤ) : ℚ) = (daily : ℚ) + (excess : ℚ) := by
    push_cast
    ring
  have hcapz : (1:ℤ) ≤ daily + excess := hcap
  have hcap1 : (1:ℚ) ≤ ((daily + excess : ℤ) : ℚ) := by exact_mod_cast hcapz
  have hcap6 : eps6 < ((daily + excess : ℤ) : ℚ) :=
    lt_of_lt_of_le (by norm_num [eps6]) hcap1
  refine planLoop_terminates ((daily + excess : ℤ) : ℚ) hcap6 N
    (initRemaining cpg pool)
    (initRemaining_nodup cpg pool hnd)
    (fun it hit => le_of_lt (initRemaining_mem cpg pool it hit).1)
    (fun it hit => by
      rw [(initRemaining_mem cpg pool it hit).2]
      exact hk9 it.name)
    ?_
  rw [hcast]
  exact hE

theorem initRemaining_filter (cpg : String → ℚ) (pool : List (String × ℚ)) :
    initRemaining cpg (pool.filter (fun p => 0 < p.2)) =
      initRemaining cpg pool := by
  unfold initRemaining
  rw [List.filter_filter]
  simp

/-- C5 (amended): `create_multi_day_plan` raises no error on a pool holding
a non-positive-mass item; the `weight > 0` comprehension filter silently
drops such items, so the plan equals the plan of the filtered pool (a
partial allocation of the remaining well-formed items). -/
theorem claim_C5_amended_filtering (pool : List (String × ℚ))
    (daily meals excess : ℤ) (fuel : ℕ) :
    create_multi_day_plan pool daily meals excess fuel =
      create_multi_day_plan (pool.filter (fun p => 0 < p.2)) daily meals
        excess fuel := by
  unfold create_multi_day_plan create_multi_day_planWith multiDayBucketsWith
  rw [initRemaining_filter]

/-- Total grams distributed over all slots of a meal plan. -/
def mealPlanMass (mp : MealPlan) : ℚ :=
  ((mealPlanEntries mp).map Prod.snd).sum

/-- C6 (amended): `distribute_products` performs no slot-count validation
and has no failure mode at all in this model: for any `meals_count` outside
`{4, 5}` (and ≠ 0, where Python would raise `ZeroDivisionError`, not
`InvalidSlotCount`) it still divides every product mass by `meals_count`
into the four base slots with no second snack, so the total distributed
mass is `4 / meals_count` times the input mass. -/
theorem claim_C6_amended_no_validation (products : List (String × ℚ))
    (m : ℤ) (hm0 : m ≠ 0) (hm4 : m ≠ 4) (hm5 : m ≠ 5) :
    mealPlanMass (distribute_products products m) =
      4 / (m : ℚ) * ((products.map Prod.snd).sum) ∧
    (distribute_products products m).second_snack = none := by
  unfold distribute_products
  by_cases hne : products.isEmpty
  · rw [if_pos hne]
    have : products = [] := List.isEmpty_iff.1 hne
    subst this
    constructor
    · unfold mealPlanMass mealPlanEntries
      simp
    · rfl
  · rw [if_neg hne]
    constructor
    · unfold mealPlanMass mealPlanEntries
      simp only [List.map_append, List.sum_append, if_neg hm5]
      have h1 : ((products.map (fun p => (p.1, p.2 / (m : ℚ)))).map
          Prod.snd).sum = (1 / (m : ℚ)) * (products.map Prod.snd).sum := by
        rw [List.map_map, ← sum_map_mul_const products (1 / (m : ℚ)) Prod.snd]
        apply congrArg
        apply List.map_congr_left
        intro p _
        show p.2 / (m : ℚ) = 1 / (m : ℚ) * p.2
        ring
      simp only [Option.getD_none, List.map_nil, List.sum_nil]
      rw [h1]
      ring
    · simp only [if_neg hm5]

theorem mealPlanEntries_distribute (day : List (String × ℚ)) (m : ℤ) :
    ∀ q ∈ mealPlanEntries (distribute_products day m),
      ∃ p ∈ day, q = (p.1, p.2 / (m : ℚ)) := by
  intro q hq
  unfold distribute_products at hq
  by_cases hne : day.isEmpty
  · rw [if_pos hne] at hq
    simp [mealPlanEntries] at hq
  · rw [if_neg hne] at hq
    unfold mealPlanEntries at hq
    simp only at hq
    have hper : q ∈ day.map (fun p => (p.1, p.2 / (m : ℚ))) := by
      rcases List.mem_append.1 hq with h | h
      · rcases List.mem_append.1 h with h | h
        · rcases List.mem_append.1 h with h | h
          · rcases List.mem_append.1 h with h | h
            · exact h
            · exact h
          · exact h
        · exact h
      · by_cases hm : m = 5
        · rw [if_pos hm] at h
          simpa using h
        · rw [if_neg hm] at h
          simp at h
    obtain ⟨p, hp, he⟩ := List.mem_map.1 hper
    exact ⟨p, hp, he.symm⟩

/-- C7 (amended): zero-mass items never reach any multi-day output — every
entry of every slot of every plan returned by `create_multi_day_plan` has
strictly positive grams (day buckets only keep items with `grams > 0`, and
slots divide them by a positive `meals_count`).  The direct single-day path
`distribute_products` performs no such filtering (see the counterexample). -/
theorem claim_C7_amended_zero_mass (pool : List (String × ℚ))
    (daily meals excess : ℤ) (fuel : ℕ) (plans : List MealPlan)
    (hplan : create_multi_day_plan pool daily meals excess fuel = some plans)
    (hm : 1 ≤ meals) :
    ∀ mp ∈ plans, ∀ q ∈ mealPlanEntries mp, 0 < q.2 := by
  intro mp hmp q hq
  unfold create_multi_day_plan create_multi_day_planWith
    multiDayBucketsWith at hplan
  obtain ⟨days, hdays, hmap⟩ := Option.map_eq_some'.1 hplan
  rw [← hmap] at hmp
  obtain ⟨day, hday, he⟩ := List.mem_map.1 hmp
  rw [← he] at hq
  obtain ⟨p, hp, hqe⟩ := mealPlanEntries_distribute day meals q hq
  have hpos := planLoop_buckets_pos _ fuel _ days hdays day hday p hp
  have hmq : (0:ℚ) < (meals : ℤ) := by exact_mod_cast hm
  rw [hqe]
  show (0:ℚ) < p.2 / ((meals : ℤ) : ℚ)
  apply div_pos hpos
  exact_mod_cast hm

/-- C8 (amended): for every non-empty day bucket and `mealsPerDay ∈ {4,5}`,
`distribute_products` puts every item into every active slot at exactly
`mass / mealsPerDay`, slots in the fixed order, with `second_snack` present
exactly when `mealsPerDay = 5`; the empty bucket is the one exception — it
returns an all-empty plan whose `second_snack` is absent even for 5 meals. -/
theorem claim_C8_amended_equal_division (bucket : List (String × ℚ))
    (m : ℤ) (hne : bucket ≠ []) (hm : m = 4 ∨ m = 5) :
    (distribute_products bucket m).breakfast =
      bucket.map (fun p => (p.1, p.2 / (m : ℚ))) ∧
    (distribute_products bucket m).snack =
      bucket.map (fun p => (p.1, p.2 / (m : ℚ))) ∧
    (distribute_products bucket m).lunch =
      bucket.map (fun p => (p.1, p.2 / (m : ℚ))) ∧
    (distribute_products bucket m).dinner =
      bucket.map (fun p => (p.1, p.2 / (m : ℚ))) ∧
    (distribute_products bucket m).second_snack =
      (if m = 5 then some (bucket.map (fun p => (p.1, p.2 / (m : ℚ))))
       else none) := by
  have hne' : bucket.isEmpty = false := by
    cases bucket with
    | nil => exact absurd rfl hne
    | cons a l => rfl
  unfold distribute_products
  rw [hne']
  exact ⟨rfl, rfl, rfl, rfl, rfl⟩

/-! ### Concrete evaluations

The kernel evaluates the embedding on concrete rational inputs; core marks
the `Rat` arithmetic operations `@[irreducible]`, which only affects
elaboration-time unfolding, so they are restored to their default
reducibility here for the closed computations below. -/

set_option allowUnsafeReducibility true

attribute [semireducible] Rat.add Rat.mul Rat.div Rat.sub Rat.normalize
  Rat.maybeNormalize Rat.neg Rat.inv

/-- C4 (the code, at the failing input): with `capPerDay = 0` and a
non-empty pool, `create_multi_day_plan` raises no `InvalidCapacity` error
and never terminates: every iteration assigns nothing, leaves `remaining`
unchanged and appends an empty day, so no amount of fuel produces a
result. -/
theorem claim_C4_zero_capacity_diverges :
    ∀ fuel : ℕ, create_multi_day_plan [("x", 100)] 0 4 0 fuel = none := by
  have hrem : initRemaining calories_per_gram [("x", 100)] =
      [⟨"x", 100, 1⟩] := by decide
  have hkey : ∀ n, planLoop 0 n [⟨"x", 100, 1⟩] = none := by
    intro n
    induction n with
    | zero => exact planLoop_zero_active 0 _ (by decide)
    | succ n ih =>
      rw [planLoop_step 0 n _ (by decide) (by decide)]
      have hbd : buildDay 0 (totalKcal [⟨"x", 100, 1⟩]) [⟨"x", 100, 1⟩] =
          ([], [⟨"x", 100, 1⟩]) := by decide
      rw [hbd, ih]
      rfl
  intro fuel
  unfold create_multi_day_plan create_multi_day_planWith multiDayBucketsWith
  rw [hrem]
  have hc : ((0 + 0 : ℤ) : ℚ) = 0 := by norm_num
  rw [hc, hkey fuel]
  rfl

/-- C9 (density resolution order and total fallback): the source resolver
`calories_per_gram` realises exactly the spec's three-stage resolution
order (`resolveDensitySpec`, scaled to kcal per gram) for every query
name, never fails, and an unresolvable item of 100 g contributes exactly
100 kcal. The case-folded exact-match stage is live on the Cyrillic
catalog: the mixed-case query `"Рис"` and the all-caps query `"КУРИЦА"`
resolve to their catalog densities (3.44 and 1.65 kcal/g), and the
substring stage folds too: `"РИСОВАЯ"` resolves to the catalog key
`"рис"` contained in it. -/
theorem claim_C9_resolution_order :
    (∀ name, calories_per_gram name = resolveDensitySpec name / 100) ∧
    calories_per_gram "Рис" = 344 / 100 ∧
    calories_per_gram "КУРИЦА" = 165 / 100 ∧
    find_similar_product "РИСОВАЯ" = some "рис" ∧
    calories_per_gram "РИСОВАЯ" = 344 / 100 ∧
    calculate_total_calories [("zzz", 100)] = 100 :=
  ⟨calories_per_gram_eq_spec, by decide, by decide, by decide, by decide,
    by decide⟩

/-- The density resolver of the C3 counterexample: strictly positive
everywhere. -/
def cexCpg : String → ℚ := fun n => if n = "a" then 1000 else 1

/-- The pool of the C3 counterexample. -/
def cexPool : List (String × ℚ) := [("a", 1/1000000000), ("b", 2 - 1/1000000)]

/-- C3 counterexample: a pool with strictly positive densities and total
energy exactly 2 against `capPerDay = 1`, so the claimed bound allows
`⌈2 / 1⌉ = 2` iterations — yet the day loop is still running after 2
iterations (fuel 2 returns `none`) and needs a third. -/
theorem claim_C3_counterexample :
    (∀ n, 0 < cexCpg n) ∧
    totalKcal (initRemaining cexCpg cexPool) = 2 ∧
    multiDayBucketsWith cexCpg cexPool 1 0 2 = none ∧
    (multiDayBucketsWith cexCpg cexPool 1 0 3).isSome = true := by
  refine ⟨?_, by decide, by decide, by decide⟩
  intro n
  unfold cexCpg
  by_cases h : n = "a"
  · rw [if_pos h]
    norm_num
  · rw [if_neg h]
    norm_num

/-- C5 counterexample: a pool with a negative-mass item is not rejected
with `InvalidMass`; the malformed item is silently dropped and the rest of
the pool is allocated — a partial allocation of a malformed pool. -/
theorem claim_C5_counterexample :
    create_multi_day_plan [("a", -50), ("b", 100)] 100 4 0 2 =
      some [⟨[("b", 25)], [("b", 25)], [("b", 25)], [("b", 25)], none⟩] := by
  decide

/-- C6 counterexample: `meals_count = 3` is outside `{4, 5}`, yet
`distribute_products` raises no `InvalidSlotCount`; it divides by 3 into
the four base slots (distributing 4/3 of the input mass). -/
theorem claim_C6_counterexample :
    distribute_products [("rice", 300)] 3 =
      ⟨[("rice", 100)], [("rice", 100)], [("rice", 100)], [("rice", 100)],
        none⟩ := by
  decide

/-- C7 counterexample: on the direct single-day path a zero-mass item does
appear in the output — `distribute_products` performs no filtering. -/
theorem claim_C7_counterexample :
    (distribute_products [("rice", 0)] 4).breakfast = [("rice", 0)] := by
  decide

/-- C8 counterexample: for the empty day bucket with `mealsPerDay = 5` the
`second_snack` slot is absent (`none`), so "present exactly when
`mealsPerDay = 5`" fails on the empty bucket. -/
theorem claim_C8_counterexample :
    distribute_products [] 5 = ⟨[], [], [], [], none⟩ := by
  decide
theorem claim_C1_cap_invariant_witness :
    (([(("a" : String), (100:ℚ))].map Prod.fst).Nodup ∧
      (0:ℤ) < 60 ∧ (0:ℤ) ≤ 0) ∧
    dayEnergy (fun _ => 1) [(("a" : String), (60:ℚ))] ≤
      ((60:ℤ) : ℚ) + ((0:ℤ) : ℚ) + eps6 :=
  ⟨⟨by decide, by decide, by decide⟩,
    claim_C1_cap_invariant (fun _ => 1) [("a", 100)] 60 0 2
      [[("a", 60)], [("a", 40)]] (by decide) (fun _ => by norm_num)
      (by decide) (by decide) (by decide) [("a", 60)] (by decide)⟩



theorem claim_C10_remaining_invariant_witness :
    ((0:ℚ) ≤ (⟨"a", 3, 1⟩ : RItem).weight ∧
      0 ≤ chargedOf [("a", 5)] ⟨"a", 3, 1⟩ ∧
      chargedOf [("a", 5)] ⟨"a", 3, 1⟩ ≤ (⟨"a", 3, 1⟩ : RItem).weight) ∧
    (0 ≤ assignedTotal "a" [[("a", 1)]] ∧
      assignedTotal "a" [[("a", 1)]] ≤ (⟨"a", 1, 1⟩ : RItem).weight) := by
  constructor
  · have h := claim_C10_remaining_invariant.1 [("a", 5)] ⟨"a", 3, 1⟩
      (by decide)
    exact ⟨by decide, h.1, h.2.1⟩
  · exact claim_C10_remaining_invariant.2 1 2 [⟨"a", 1, 1⟩] [[("a", 1)]]
      (by decide) (by decide) (by decide) ⟨"a", 1, 1⟩ (by decide)

theorem claim_C2_conservation_witness :
    (([(("zzz" : String), (100:ℚ))].map Prod.fst).Nodup ∧
      (∀ p ∈ [(("zzz" : String), (100:ℚ))], 0 < p.2) ∧
      (0:ℤ) < 60 ∧ (0:ℤ) ≤ 0 ∧
      totalKcal (initRemaining calories_per_gram [("zzz", 100)]) ≤
        ((2:ℕ) : ℚ) * (((60:ℤ) : ℚ) + ((0:ℤ) : ℚ) - eps6) + eps9) ∧
    ((multiDayBucketsWith calories_per_gram [("zzz", 100)] 60 0 3).isSome
        = true ∧
      |assignedTotal "zzz" [[("zzz", 60)], [("zzz", 40)]] - 100| ≤ eps6) := by
  have h := claim_C2_conservation [("zzz", 100)] 60 0 2 (by decide)
    (by decide) (by decide) (by decide) (by decide)
  exact ⟨⟨by decide, by decide, by decide, by decide, by decide⟩,
    h.1, h.2 [[("zzz", 60)], [("zzz", 40)]] (by decide) ("zzz", 100)
      (by decide)⟩

theorem claim_C3_amended_termination_witness :
    (([(("a" : String), (100:ℚ))].map Prod.fst).Nodup ∧
      (∀ n : String, eps9 ≤ (1:ℚ)) ∧ (0:ℤ) < 60 + 0 ∧
      totalKcal (initRemaining (fun _ => 1) [("a", 100)]) ≤
        ((2:ℕ) : ℚ) * (((60:ℤ) : ℚ) + ((0:ℤ) : ℚ) - eps6) + eps9) ∧
    (multiDayBucketsWith (fun _ => 1) [("a", 100)] 60 0 3).isSome = true :=
  ⟨⟨by decide, fun _ => by norm_num [eps9], by decide, by decide⟩,
    claim_C3_amended_termination (fun _ => 1) [("a", 100)] 60 0 2 (by decide)
      (fun _ => by norm_num [eps9]) (by decide) (by decide)⟩

theorem claim_C6_amended_no_validation_witness :
    ((3:ℤ) ≠ 0 ∧ (3:ℤ) ≠ 4 ∧ (3:ℤ) ≠ 5) ∧
    (mealPlanMass (distribute_products [("rice", 300)] 3) =
        4 / ((3:ℤ) : ℚ) * (([(("rice" : String), (300:ℚ))].map Prod.snd).sum) ∧
      (distribute_products [("rice", 300)] 3).second_snack = none) :=
  ⟨⟨by decide, by decide, by decide⟩,
    claim_C6_amended_no_validation [("rice", 300)] 3 (by decide) (by decide)
      (by decide)⟩

theorem claim_C7_amended_zero_mass_witness :
    (create_multi_day_plan [("x", 100), ("y", 0)] 200 4 0 2 =
        some [⟨[("x", 25)], [("x", 25)], [("x", 25)], [("x", 25)], none⟩] ∧
      (1:ℤ) ≤ 4) ∧
    (0:ℚ) < (("x", (25:ℚ)) : String × ℚ).2 :=
  ⟨⟨by decide, by decide⟩,
    claim_C7_amended_zero_mass [("x", 100), ("y", 0)] 200 4 0 2
      [⟨[("x", 25)], [("x", 25)], [("x", 25)], [("x", 25)], none⟩]
      (by decide) (by decide)
      ⟨[("x", 25)], [("x", 25)], [("x", 25)], [("x", 25)], none⟩ (by decide)
      ("x", 25) (by decide)⟩

theorem claim_C8_amended_equal_division_witness :
    ([(("rice" : String), (400:ℚ))] ≠ [] ∧ ((4:ℤ) = 4 ∨ (4:ℤ) = 5)) ∧
    (distribute_products [("rice", 400)] 4).breakfast = [("rice", 100)] := by
  refine ⟨⟨by decide, Or.inl rfl⟩, ?_⟩
  have h := (claim_C8_amended_equal_division [("rice", 400)] 4 (by decide)
    (Or.inl rfl)).1
  rw [h]
  decide
